import Mathlib

/-!
Verification of the QA-framework core of the repository
(`edr/crowdstrike/audit/qa_framework/`): the consensus engine
(`consensus.py`), the similarity index (`similarity.py`) and the
sanitizer (`sanitizer.py`), shallowly embedded in Lean.

Python floats are modelled as exact rationals (ℚ) where the code only
adds, divides and compares, and as reals (ℝ) where the code takes a
square root (the Wilson interval).  The z-score obtained from
`scipy.stats.norm.ppf` is an external library call and is modelled as an
explicit real parameter `z`; theorems that depend on its value carry a
hypothesis bounding `z` around the true value 1.9599... of ppf(0.975).
-/

namespace QA

/-! ## Python round-half-to-even, used by round(x, 3) -/

/-- Python round-half-to-even of a rational to an integer
(exact-rational model of the float rounding done by Python `round`). -/
def roundHalfEven (q : ℚ) : ℤ :=
  let f := ⌊q⌋
  let frac := q - f
  if frac < 1/2 then f
  else if 1/2 < frac then f + 1
  else if f % 2 = 0 then f else f + 1

/-- Python `round(q, 3)` over exact rationals. -/
def round3 (q : ℚ) : ℚ := (roundHalfEven (q * 1000) : ℚ) / 1000

/-- Python round-half-to-even to an integer, over ℝ (for the values that
involve a square root). -/
noncomputable def roundHalfEvenR (x : ℝ) : ℤ :=
  let f := ⌊x⌋
  let frac := x - f
  if frac < 1/2 then f
  else if 1/2 < frac then f + 1
  else if f % 2 = 0 then f else f + 1

/-- Python `round(x, 3)` over ℝ. -/
noncomputable def round3R (x : ℝ) : ℝ := (roundHalfEvenR (x * 1000) : ℝ) / 1000

/-! ## consensus.py -/

/-- Constructor parameters of `ConsensusCalculator` (consensus.py, `__init__`). -/
structure ConsensusCalculator where
  min_samples : ℕ := 20
  strong_threshold : ℚ := 9/10

/-- The dict returned by `calculate_consensus`.  `none` in an `Option`
field models an absent key (the `confidence_interval` and `distribution`
keys are only present in the `consensus` branch) or a Python `None`
value (for `majority_resolution`, `ratio`, `strength`). -/
structure ConsensusResult where
  status : String
  majority_resolution : Option String
  ratio : Option ℚ
  sample_size : ℕ
  strength : Option String
  confidence_interval : Option (ℝ × ℝ) := none
  distribution : Option (List (String × ℕ)) := none

/-- The dict returned by `detect_contradiction`.  Trailing fields are
only present in the contradiction branch (`none` models an absent key;
the inner `Option` mirrors the possibly-`None` values echoed from the
consensus dict). -/
structure ContradictionVerdict where
  is_contradiction : Bool
  severity : Option String
  reason : String
  new_resolution : Option String := none
  historical_resolution : Option (Option String) := none
  consensus_strength : Option (Option String) := none
  sample_size : Option ℕ := none
  historical_ratio : Option (Option ℚ) := none

namespace ConsensusCalculator

/-- `[r for r in resolutions if r]`: drops Python-falsy entries
(`None` and the empty string). -/
def validResolutions (resolutions : List (Option String)) : List String :=
  resolutions.filterMap fun r => match r with
    | none => none
    | some s => if s = "" then none else some s

/-- The distinct elements of `l` in order of first occurrence
(the key order of a Python `Counter` built from `l`). -/
def firstKeys : List String → List String
  | [] => []
  | x :: xs => x :: (firstKeys xs).filter (fun y => y ≠ x)

/-- `Counter(l).most_common(1)[0]`: the element with the largest count;
Python `most_common` sorts stably by descending count over keys in
first-occurrence order, so ties go to the first-encountered key, which
is what the strict `<` below implements.  (Returns `("", 0)` on `[]`,
where the source never calls it.) -/
def mostCommon (l : List String) : String × ℕ :=
  (firstKeys l).foldl
    (fun best k => if best.2 < l.count k then (k, l.count k) else best) ("", 0)

/-- `dict(Counter(l))`: label to count, keys in first-occurrence order. -/
def distributionOf (l : List String) : List (String × ℕ) :=
  (firstKeys l).map (fun k => (k, l.count k))

/-- `_wilson_interval(successes, n, confidence=0.95)` from consensus.py.
`z = stats.norm.ppf(1 - (1 - confidence) / 2)` is an external scipy
call, modelled as the parameter `z` (its float value at the default
confidence is 1.959963984540054). -/
noncomputable def wilson_interval (successes n : ℕ) (z : ℝ) : ℝ × ℝ :=
  if n = 0 then ((0 : ℝ), (0 : ℝ))
  else
    let p : ℝ := (successes : ℝ) / n
    let denominator : ℝ := 1 + z ^ 2 / n
    let center : ℝ := (p + z ^ 2 / (2 * n)) / denominator
    let spread : ℝ := z * Real.sqrt (p * (1 - p) / n + z ^ 2 / (4 * n ^ 2)) / denominator
    (max 0 (center - spread), min 1 (center + spread))

open scoped Classical

/-- `calculate_consensus(resolutions)` from consensus.py.  Input entries
are `Option String` so that Python `None` entries are representable. -/
noncomputable def calculate_consensus (self : ConsensusCalculator) (z : ℝ)
    (resolutions : List (Option String)) : ConsensusResult :=
  let valid_resolutions := validResolutions resolutions
  let n := valid_resolutions.length
  if n = 0 then
    { status := "no_data", majority_resolution := none, ratio := none,
      sample_size := 0, strength := none }
  else if n < self.min_samples then
    let mc := mostCommon valid_resolutions
    { status := "insufficient_data", majority_resolution := some mc.1,
      ratio := some ((mc.2 : ℚ) / (n : ℚ)), sample_size := n, strength := none }
  else
    let mc := mostCommon valid_resolutions
    let ratio : ℚ := (mc.2 : ℚ) / (n : ℚ)
    let ci := wilson_interval mc.2 n z
    let strength : String :=
      if self.strong_threshold ≤ ratio ∧ (0.70 : ℝ) ≤ ci.1 then "strong"
      else if (0.80 : ℚ) ≤ ratio then "moderate"
      else "weak"
    { status := "consensus", majority_resolution := some mc.1,
      ratio := some (round3 ratio), sample_size := n, strength := some strength,
      confidence_interval := some (round3R ci.1, round3R ci.2),
      distribution := some (distributionOf valid_resolutions) }

/-- `detect_contradiction(new_resolution, consensus)` from consensus.py.
The consensus argument is the structure above, whose keys are always
present, exactly as `calculate_consensus` produces them; `.get` calls
with defaults therefore read the field directly. -/
def detect_contradiction (new_resolution : String)
    (consensus : ConsensusResult) : ContradictionVerdict :=
  let status := consensus.status
  if status = "no_data" then
    { is_contradiction := false, severity := some "INFO", reason := "novel_pattern" }
  else if status = "insufficient_data" then
    { is_contradiction := false, severity := some "INFO",
      reason := "insufficient_historical_data" }
  else if status ≠ "consensus" then
    { is_contradiction := false, severity := some "INFO", reason := status }
  else
    let historical := consensus.majority_resolution
    if some new_resolution = historical then
      { is_contradiction := false, severity := none, reason := "matches_consensus" }
    else
      let strength := consensus.strength
      let sr : String × String :=
        if strength = some "strong" ∨ strength = some "moderate" then
          if historical = some "true_positive" ∧ new_resolution = "false_positive" then
            ("CRITICAL", "fp_contradicts_strong_tp_consensus")
          else if historical = some "false_positive" ∧ new_resolution = "true_positive" then
            ("HIGH", "tp_contradicts_strong_fp_consensus")
          else if historical = some "true_positive" ∧ new_resolution = "ignored" then
            ("MEDIUM", "ignored_contradicts_strong_tp_consensus")
          else if historical = some "ignored" ∧ new_resolution = "true_positive" then
            ("LOW", "tp_contradicts_ignored_consensus")
          else ("LOW", "other_contradiction")
        else ("LOW", "contradicts_weak_consensus")
      { is_contradiction := true, severity := some sr.1, reason := sr.2,
        new_resolution := some new_resolution,
        historical_resolution := some historical,
        consensus_strength := some strength,
        sample_size := some consensus.sample_size,
        historical_ratio := some consensus.ratio }

end ConsensusCalculator

end QA

namespace QA

/-! ## Concrete resolution lists used by the end-to-end scenarios -/

/-- Scenario list: 95 true positives followed by 5 false positives. -/
def scenario100 : List (Option String) :=
  List.replicate 95 (some "true_positive") ++ List.replicate 5 (some "false_positive")

/-- 20 true positives and one false positive (a consensus-branch input
whose majority ratio 20/21 is not exactly representable after
`round(ratio, 3)`). -/
def scenario21 : List (Option String) :=
  List.replicate 20 (some "true_positive") ++ [some "false_positive"]

/-- 15 true positives: below the default minimum sample size. -/
def scenario15 : List (Option String) :=
  List.replicate 15 (some "true_positive")

/-- Severity decision table of the specification (modelled from the
spec, section 4.2: applies equally for strong and moderate strength,
while weak strength always yields LOW). -/
def specSeverity (strength historical : Option String)
    (new_resolution : String) : String :=
  if strength = some "weak" then "LOW"
  else if historical = some "true_positive" ∧ new_resolution = "false_positive" then
    "CRITICAL"
  else if historical = some "false_positive" ∧ new_resolution = "true_positive" then
    "HIGH"
  else if historical = some "true_positive" ∧ new_resolution = "ignored" then
    "MEDIUM"
  else if historical = some "ignored" ∧ new_resolution = "true_positive" then
    "LOW"
  else "LOW"

namespace ConsensusCalculator

set_option maxRecDepth 8000

lemma validResolutions_scenario100 : validResolutions scenario100 =
    List.replicate 95 "true_positive" ++ List.replicate 5 "false_positive" := by
  decide

lemma mostCommon_scenario100 :
    mostCommon (validResolutions scenario100) = ("true_positive", 95) := by decide

lemma length_valid_scenario100 : (validResolutions scenario100).length = 100 := by decide

/-- The Wilson lower bound at 95 successes out of 100 is at least 0.70
for any z between 0 and 2 (in particular at the 95 percent z-score). -/
lemma wilson_low_95_100 (z : ℝ) (hz0 : 0 ≤ z) (hz2 : z ≤ 2) :
    (0.70 : ℝ) ≤ (wilson_interval 95 100 z).1 := by
  have hzsq : z ^ 2 ≤ 4 := by nlinarith
  rw [wilson_interval, if_neg (by norm_num : ¬(100 = 0))]
  simp only
  have hE : Real.sqrt ((95:ℕ) / (100:ℕ) * (1 - (95:ℕ) / (100:ℕ)) / (100:ℕ)
      + z ^ 2 / (4 * (100:ℕ) ^ 2)) ≤ 0.024 := by
    rw [Real.sqrt_le_left (by norm_num)]
    push_cast
    nlinarith
  set s := Real.sqrt ((95:ℕ) / (100:ℕ) * (1 - (95:ℕ) / (100:ℕ)) / (100:ℕ)
      + z ^ 2 / (4 * (100:ℕ) ^ 2)) with hs
  have hs0 : 0 ≤ s := Real.sqrt_nonneg _
  have hD : (0:ℝ) < 1 + z ^ 2 / (100:ℕ) := by positivity
  have key : (0.70 : ℝ) ≤ ((95:ℕ) / (100:ℕ) + z ^ 2 / (2 * (100:ℕ))) / (1 + z ^ 2 / (100:ℕ))
      - z * s / (1 + z ^ 2 / (100:ℕ)) := by
    rw [div_sub_div_same, le_div_iff₀ hD]
    have hzs : z * s ≤ z * 0.024 := mul_le_mul_of_nonneg_left hE hz0
    push_cast
    nlinarith
  calc (0.70 : ℝ) ≤ _ := key
    _ ≤ _ := le_max_right 0 _

/-- C1: with minSampleSize 20 and strongThreshold 0.90, the 95/5
scenario yields status consensus, ratio 0.95 and strength strong, and a
new false positive against that result is a CRITICAL contradiction.
The z-score parameter is constrained to a range containing the true
scipy value 1.9599... -/
theorem c1_scenario_strong_critical (z : ℝ) (hz0 : 0 ≤ z) (hz2 : z ≤ 2) :
    (calculate_consensus ⟨20, 9/10⟩ z scenario100).status = "consensus" ∧
    (calculate_consensus ⟨20, 9/10⟩ z scenario100).ratio = some (0.95 : ℚ) ∧
    (calculate_consensus ⟨20, 9/10⟩ z scenario100).strength = some "strong" ∧
    (detect_contradiction "false_positive"
        (calculate_consensus ⟨20, 9/10⟩ z scenario100)).is_contradiction = true ∧
    (detect_contradiction "false_positive"
        (calculate_consensus ⟨20, 9/10⟩ z scenario100)).severity = some "CRITICAL" := by
  have hmc := mostCommon_scenario100
  have hlen := length_valid_scenario100
  have hr : calculate_consensus ⟨20, 9/10⟩ z scenario100 =
      { status := "consensus", majority_resolution := some "true_positive",
        ratio := some (round3 ((95 : ℚ) / (100 : ℚ))), sample_size := 100,
        strength := some (if (9/10 : ℚ) ≤ (95 : ℚ) / (100 : ℚ)
            ∧ (0.70 : ℝ) ≤ (wilson_interval 95 100 z).1 then "strong"
          else if (0.80 : ℚ) ≤ (95 : ℚ) / (100 : ℚ) then "moderate" else "weak"),
        confidence_interval := some (round3R (wilson_interval 95 100 z).1,
          round3R (wilson_interval 95 100 z).2),
        distribution := some (distributionOf (validResolutions scenario100)) } := by
    rw [calculate_consensus]
    simp only [hmc, hlen]
    norm_num
  have hstrong : (if (9/10 : ℚ) ≤ (95 : ℚ) / (100 : ℚ)
      ∧ (0.70 : ℝ) ≤ (wilson_interval 95 100 z).1 then "strong"
      else if (0.80 : ℚ) ≤ (95 : ℚ) / (100 : ℚ) then "moderate" else "weak") = "strong" := by
    rw [if_pos ⟨by norm_num, wilson_low_95_100 z hz0 hz2⟩]
  have hratio : round3 ((95 : ℚ) / (100 : ℚ)) = (0.95 : ℚ) := by
    norm_num [round3, roundHalfEven]
  refine ⟨by rw [hr], by rw [hr]; simp [hratio], by rw [hr, hstrong], ?_, ?_⟩
  · rw [hr, hstrong]
    simp [detect_contradiction]
  · rw [hr, hstrong]
    simp [detect_contradiction]

/-- Witness for C1 at the concrete z-score 1.96. -/
theorem c1_witness :
    (calculate_consensus ⟨20, 9/10⟩ 1.96 scenario100).status = "consensus" ∧
    (calculate_consensus ⟨20, 9/10⟩ 1.96 scenario100).ratio = some (0.95 : ℚ) ∧
    (calculate_consensus ⟨20, 9/10⟩ 1.96 scenario100).strength = some "strong" ∧
    (detect_contradiction "false_positive"
        (calculate_consensus ⟨20, 9/10⟩ 1.96 scenario100)).is_contradiction = true ∧
    (detect_contradiction "false_positive"
        (calculate_consensus ⟨20, 9/10⟩ 1.96 scenario100)).severity = some "CRITICAL" :=
  c1_scenario_strong_critical 1.96 (by norm_num) (by norm_num)

/-- C4: for 0 ≤ successes ≤ n and a nonnegative z-score (the case at the
default 0.95 confidence), the Wilson interval is within [0,1] with
low ≤ high, and n = 0 yields exactly (0.0, 0.0). -/
theorem c4_wilson_interval_bounds (successes n : ℕ) (z : ℝ)
    (hsn : successes ≤ n) (hz : 0 ≤ z) :
    (0 ≤ (wilson_interval successes n z).1 ∧
     (wilson_interval successes n z).1 ≤ (wilson_interval successes n z).2 ∧
     (wilson_interval successes n z).2 ≤ 1) ∧
    wilson_interval successes 0 z = (0, 0) := by
  refine ⟨?_, rfl⟩
  by_cases hn : n = 0
  · subst hn
    rw [wilson_interval]
    norm_num
  · rw [wilson_interval, if_neg hn]
    dsimp only
    have hn' : (0:ℝ) < (n:ℝ) := by exact_mod_cast Nat.pos_of_ne_zero hn
    have hp0 : (0:ℝ) ≤ (successes:ℝ)/(n:ℝ) := by positivity
    have hp1 : (successes:ℝ)/(n:ℝ) ≤ 1 := by
      rw [div_le_one hn']
      exact_mod_cast hsn
    have hD : (0:ℝ) < 1 + z^2/(n:ℝ) := by positivity
    set p := (successes:ℝ)/(n:ℝ) with hp
    set s := Real.sqrt (p * (1-p)/(n:ℝ) + z^2/(4*(n:ℝ)^2)) with hsdef
    have hs0 : 0 ≤ s := Real.sqrt_nonneg _
    have hC0 : 0 ≤ (p + z^2/(2*(n:ℝ)))/(1+z^2/(n:ℝ)) := by positivity
    have hS0 : 0 ≤ z * s / (1+z^2/(n:ℝ)) := by positivity
    have hC1 : (p + z^2/(2*(n:ℝ)))/(1+z^2/(n:ℝ)) ≤ 1 := by
      rw [div_le_one hD]
      have hhalf : z^2/(2*(n:ℝ)) ≤ z^2/(n:ℝ) := by
        gcongr
        linarith
      linarith
    refine ⟨le_max_left _ _, le_min (max_le (by norm_num) (by linarith)) ?_,
      min_le_left _ _⟩
    exact max_le (by linarith) (by linarith)

/-- Witness for C4 at successes = 3, n = 5, z = 2. -/
theorem c4_witness :
    (0 ≤ (wilson_interval 3 5 2).1 ∧
     (wilson_interval 3 5 2).1 ≤ (wilson_interval 3 5 2).2 ∧
     (wilson_interval 3 5 2).2 ≤ 1) ∧
    wilson_interval 3 0 2 = (0, 0) :=
  c4_wilson_interval_bounds 3 5 2 (by norm_num) (by norm_num)

/-- C2: for any consensus dict with status consensus and a differing new
resolution (and strength one of strong, moderate, weak), the verdict is
a contradiction with severity given exactly by the decision table of the
specification. -/
theorem c2_severity_table (c : ConsensusResult) (new_resolution : String)
    (hst : c.status = "consensus")
    (hstr : c.strength = some "strong" ∨ c.strength = some "moderate"
      ∨ c.strength = some "weak")
    (hdiff : some new_resolution ≠ c.majority_resolution) :
    (detect_contradiction new_resolution c).is_contradiction = true ∧
    (detect_contradiction new_resolution c).severity
      = some (specSeverity c.strength c.majority_resolution new_resolution) := by
  rw [detect_contradiction]
  simp only [hst]
  rw [if_neg (by decide : ¬("consensus" = "no_data")),
    if_neg (by decide : ¬("consensus" = "insufficient_data")),
    if_neg (by simp : ¬("consensus" ≠ "consensus")), if_neg hdiff]
  refine ⟨rfl, ?_⟩
  rcases hstr with h | h | h <;> rw [h] <;> rw [specSeverity] <;>
    dsimp only <;> split_ifs <;> simp_all

/-- Witness for C2: a strong true-positive consensus contradicted by a
new false positive. -/
theorem c2_witness :
    (detect_contradiction "false_positive"
      { status := "consensus", majority_resolution := some "true_positive",
        ratio := some (19/20), sample_size := 100,
        strength := some "strong" }).is_contradiction = true ∧
    (detect_contradiction "false_positive"
      { status := "consensus", majority_resolution := some "true_positive",
        ratio := some (19/20), sample_size := 100,
        strength := some "strong" }).severity
      = some (specSeverity (some "strong") (some "true_positive") "false_positive") :=
  c2_severity_table _ "false_positive" rfl (Or.inl rfl) (by decide)

lemma mostCommon_scenario21 :
    mostCommon (validResolutions scenario21) = ("true_positive", 20) := by decide

lemma length_valid_scenario21 : (validResolutions scenario21).length = 21 := by decide

/-- Counterexample to C3 as stated: on 20 true positives and one false
positive the consensus branch stores round(20/21, 3) = 0.952 = 119/125
in the ratio field, which differs from the exact majority ratio 20/21,
even though majority_resolution is non-null. -/
theorem c3_counterexample :
    (calculate_consensus ⟨20, 9/10⟩ 0 scenario21).majority_resolution
      = some "true_positive" ∧
    (calculate_consensus ⟨20, 9/10⟩ 0 scenario21).sample_size = 21 ∧
    (calculate_consensus ⟨20, 9/10⟩ 0 scenario21).ratio = some ((119:ℚ)/125) ∧
    (calculate_consensus ⟨20, 9/10⟩ 0 scenario21).ratio ≠ some ((20:ℚ)/21) := by
  have hmc := mostCommon_scenario21
  have hlen := length_valid_scenario21
  have hround : round3 ((20:ℚ)/(21:ℚ)) = (119:ℚ)/125 := by
    have hfl : ⌊(20:ℚ)/21 * 1000⌋ = 952 := by
      rw [Int.floor_eq_iff]
      norm_num
    rw [round3, roundHalfEven]
    rw [hfl]
    norm_num
  have hr : (calculate_consensus ⟨20, 9/10⟩ 0 scenario21).ratio
      = some (round3 ((20:ℚ)/(21:ℚ))) := by
    rw [calculate_consensus]
    simp only [hmc, hlen]
    norm_num
  refine ⟨by decide, by decide, ?_, ?_⟩
  · rw [hr, hround]
  · rw [hr, hround]
    intro h
    rw [Option.some_inj] at h
    norm_num at h

/-- C3 amended: sample_size always equals the number of non-empty
entries; when majority_resolution is non-null the ratio field is the
exact majority ratio in the insufficient_data branch and that ratio
rounded to three decimals in the consensus branch. -/
theorem c3_amended (self : ConsensusCalculator) (z : ℝ)
    (l : List (Option String)) :
    (calculate_consensus self z l).sample_size = (validResolutions l).length ∧
    ((calculate_consensus self z l).status = "insufficient_data" →
      (calculate_consensus self z l).ratio
        = some (((mostCommon (validResolutions l)).2 : ℚ)
            / ((validResolutions l).length : ℚ))) ∧
    ((calculate_consensus self z l).status = "consensus" →
      (calculate_consensus self z l).ratio
        = some (round3 (((mostCommon (validResolutions l)).2 : ℚ)
            / ((validResolutions l).length : ℚ)))) ∧
    ((calculate_consensus self z l).majority_resolution ≠ none →
      (calculate_consensus self z l).status = "insufficient_data"
        ∨ (calculate_consensus self z l).status = "consensus") := by
  by_cases h1 : (validResolutions l).length = 0
  · rw [calculate_consensus]
    dsimp only
    rw [if_pos h1]
    exact ⟨h1.symm, fun h => by simp at h, fun h => by simp at h,
      fun h => absurd rfl h⟩
  · by_cases h2 : (validResolutions l).length < self.min_samples
    · rw [calculate_consensus]
      dsimp only
      rw [if_neg h1, if_pos h2]
      exact ⟨rfl, fun _ => rfl, fun h => by simp at h, fun _ => Or.inl rfl⟩
    · rw [calculate_consensus]
      dsimp only
      rw [if_neg h1, if_neg h2]
      exact ⟨rfl, fun h => by simp at h, fun _ => rfl, fun _ => Or.inr rfl⟩

/-- Witness for C3 amended at the 21-sample scenario. -/
theorem c3_witness :
    (calculate_consensus ⟨20, 9/10⟩ 0 scenario21).sample_size
      = (validResolutions scenario21).length ∧
    (calculate_consensus ⟨20, 9/10⟩ 0 scenario21).ratio
      = some (round3 (((mostCommon (validResolutions scenario21)).2 : ℚ)
          / ((validResolutions scenario21).length : ℚ))) :=
  ⟨(c3_amended ⟨20, 9/10⟩ 0 scenario21).1,
   (c3_amended ⟨20, 9/10⟩ 0 scenario21).2.2.1 (by decide)⟩

/-- C6: below the minimum sample size (but with data) the result is
insufficient_data with majority and exact ratio still reported, null
strength and no confidence interval; in particular 15 true positives
with minSampleSize 20 give status insufficient_data, sample_size 15 and
strength null. -/
theorem c6_insufficient_data :
    (∀ (self : ConsensusCalculator) (z : ℝ) (l : List (Option String)),
      0 < (validResolutions l).length →
      (validResolutions l).length < self.min_samples →
      (calculate_consensus self z l).status = "insufficient_data" ∧
      (calculate_consensus self z l).majority_resolution
        = some (mostCommon (validResolutions l)).1 ∧
      (calculate_consensus self z l).ratio
        = some (((mostCommon (validResolutions l)).2 : ℚ)
            / ((validResolutions l).length : ℚ)) ∧
      (calculate_consensus self z l).sample_size = (validResolutions l).length ∧
      (calculate_consensus self z l).strength = none ∧
      (calculate_consensus self z l).confidence_interval = none) ∧
    (∀ z : ℝ,
      (calculate_consensus ⟨20, 9/10⟩ z scenario15).status = "insufficient_data" ∧
      (calculate_consensus ⟨20, 9/10⟩ z scenario15).sample_size = 15 ∧
      (calculate_consensus ⟨20, 9/10⟩ z scenario15).strength = none) := by
  constructor
  · intro self z l h0 hlt
    rw [calculate_consensus]
    rw [if_neg (by omega : ¬((validResolutions l).length = 0)), if_pos hlt]
    exact ⟨rfl, rfl, rfl, rfl, rfl, rfl⟩
  · intro z
    exact ⟨rfl, rfl, rfl⟩

/-- Witness for the universally quantified part of C6, at the
15-true-positive scenario. -/
theorem c6_witness :
    (calculate_consensus ⟨20, 9/10⟩ 0 scenario15).status = "insufficient_data" ∧
    (calculate_consensus ⟨20, 9/10⟩ 0 scenario15).majority_resolution
      = some (mostCommon (validResolutions scenario15)).1 ∧
    (calculate_consensus ⟨20, 9/10⟩ 0 scenario15).ratio
      = some (((mostCommon (validResolutions scenario15)).2 : ℚ)
          / ((validResolutions scenario15).length : ℚ)) ∧
    (calculate_consensus ⟨20, 9/10⟩ 0 scenario15).sample_size
      = (validResolutions scenario15).length ∧
    (calculate_consensus ⟨20, 9/10⟩ 0 scenario15).strength = none ∧
    (calculate_consensus ⟨20, 9/10⟩ 0 scenario15).confidence_interval = none :=
  c6_insufficient_data.1 ⟨20, 9/10⟩ 0 scenario15 (by decide) (by decide)

end ConsensusCalculator

/-! ## similarity.py -/

/-- `SimilarMatch` dataclass from similarity.py. -/
structure SimilarMatch where
  template_hash : String
  template : String
  similarity : ℚ
  shared_tokens : Finset String
  unique_to_query : Finset String
  unique_to_match : Finset String
  pattern_id : Int
  deriving DecidableEq

/-- State of a `SimilarityAnalyzer` (similarity.py).  Python dicts are
modelled as insertion-ordered association lists keyed on the first
component, and a Python set of hashes as a duplicate-free list in
insertion order (set iteration order is implementation-defined; the
model fixes it to insertion order). -/
structure SimilarityAnalyzer where
  threshold : ℚ
  template_tokens : List (String × Finset String)
  template_raw : List (String × String)
  hash_to_pattern : List (String × Int)
  pattern_to_hashes : List (Int × List String)

namespace SimilarityAnalyzer

/-- Dict write `d[k] = v`: replaces in place, or appends a new key at
the end (Python dicts preserve insertion order). -/
def insertA {α β : Type} [DecidableEq α] : List (α × β) → α → β → List (α × β)
  | [], k, v => [(k, v)]
  | (k', v') :: rest, k, v =>
    if k' = k then (k, v) :: rest else (k', v') :: insertA rest k v

/-- Dict read `d.get(k)`. -/
def lookupA {α β : Type} [DecidableEq α] : List (α × β) → α → Option β
  | [], _ => none
  | (k', v') :: rest, k => if k' = k then some v' else lookupA rest k

/-- Set write `s.add(x)` on the insertion-ordered list model. -/
def addToSet (s : List String) (x : String) : List String :=
  if x ∈ s then s else s ++ [x]

/-- `__init__(similarity_threshold=0.70)`: threshold outside (0, 1]
raises ValueError. -/
def mk_analyzer (similarity_threshold : ℚ) : Except String SimilarityAnalyzer :=
  if 0 < similarity_threshold ∧ similarity_threshold ≤ 1 then
    .ok ⟨similarity_threshold, [], [], [], []⟩
  else
    .error "similarity_threshold must be between 0 and 1"

/-- The delimiter class of `re.split` in `tokenize`: whitespace and
backslash, slash, dash, dot, comma, semicolon, colon, equals. -/
def isTokenDelim (c : Char) : Bool :=
  c = ' ' || c = '\t' || c = '\n' || c = '\r' || c = '\x0b' || c = '\x0c' ||
  c = '\\' || c = '/' || c = '-' || c = '.' || c = ',' || c = ';' || c = ':' || c = '='

/-- Splits a character list at (runs of) delimiters, returning the
non-delimiter segments.  `re.split` additionally yields empty segments
at the ends, which the caller filters out by the length > 1 check, so
the two agree after filtering. -/
def wordsByAux (p : Char → Bool) : List Char → List Char → List (List Char)
  | [], acc => if acc.isEmpty then [] else [acc.reverse]
  | c :: rest, acc =>
    if p c then
      if acc.isEmpty then wordsByAux p rest []
      else acc.reverse :: wordsByAux p rest []
    else wordsByAux p rest (c :: acc)

/-- `tokenize(template)`: lower-case, split on whitespace and common
delimiters, keep tokens longer than one character, as a set. -/
def tokenize (template : String) : Finset String :=
  (((wordsByAux isTokenDelim template.toLower.data []).map
      (fun cs => String.mk cs)).filter (fun t => 1 < t.length)).toFinset

/-- `index_template(template_hash, template, pattern_id)`. -/
def index_template (self : SimilarityAnalyzer) (template_hash template : String)
    (pattern_id : Int) : SimilarityAnalyzer :=
  { self with
    template_tokens := insertA self.template_tokens template_hash (tokenize template),
    template_raw := insertA self.template_raw template_hash template,
    hash_to_pattern := insertA self.hash_to_pattern template_hash pattern_id,
    pattern_to_hashes :=
      insertA self.pattern_to_hashes pattern_id
        (addToSet ((lookupA self.pattern_to_hashes pattern_id).getD [])
          template_hash) }

/-- `jaccard_similarity(set_a, set_b)`: 0.0 if either set is empty,
else intersection size over union size. -/
def jaccard_similarity (set_a set_b : Finset String) : ℚ :=
  if set_a = ∅ ∨ set_b = ∅ then 0
  else if 0 < (set_a ∪ set_b).card then
    ((set_a ∩ set_b).card : ℚ) / ((set_a ∪ set_b).card : ℚ)
  else 0

/-- Stable insertion into a descending-by-similarity list: an element
goes after all existing elements with similarity greater than or equal
to its own. -/
def insertDesc (x : SimilarMatch) : List SimilarMatch → List SimilarMatch
  | [] => [x]
  | y :: ys => if y.similarity < x.similarity then x :: y :: ys else y :: insertDesc x ys

/-- `candidates.sort(key=lambda x: x.similarity, reverse=True)`: Python
list.sort is stable, and a stable descending sort of a list is uniquely
determined, so this insertion sort computes exactly the list Python
produces. -/
def sortBySimilarityDesc : List SimilarMatch → List SimilarMatch
  | [] => []
  | x :: xs => insertDesc x (sortBySimilarityDesc xs)

/-- `find_similar(template_hash, template, pattern_id, max_results=5)`.
The lookups `self._template_tokens[other_hash]` and
`self._template_raw[other_hash]` are total in the model (defaulting to
an empty set and empty string); on states built by `index_template`
every candidate hash is present, so the defaults are never read. -/
def find_similar (self : SimilarityAnalyzer) (template_hash template : String)
    (pattern_id : Int) (max_results : ℕ) : List SimilarMatch :=
  let query_tokens := tokenize template
  let candidate_hashes := (lookupA self.pattern_to_hashes pattern_id).getD []
  let candidates := candidate_hashes.filterMap (fun other_hash =>
    if other_hash = template_hash then none
    else
      let other_tokens := (lookupA self.template_tokens other_hash).getD ∅
      let similarity := jaccard_similarity query_tokens other_tokens
      if self.threshold ≤ similarity then
        some { template_hash := other_hash,
               template := (lookupA self.template_raw other_hash).getD "",
               similarity := round3 similarity,
               shared_tokens := query_tokens ∩ other_tokens,
               unique_to_query := query_tokens \ other_tokens,
               unique_to_match := other_tokens \ query_tokens,
               pattern_id := pattern_id }
      else none)
  (sortBySimilarityDesc candidates).take max_results

/-! ### Sorting lemmas -/

lemma mem_insertDesc {x y : SimilarMatch} {l : List SimilarMatch} :
    y ∈ insertDesc x l ↔ y = x ∨ y ∈ l := by
  induction l with
  | nil => simp [insertDesc]
  | cons z zs ih =>
    rw [insertDesc]
    split_ifs with h
    · simp
    · simp only [List.mem_cons, ih]
      tauto

lemma pairwise_insertDesc {x : SimilarMatch} {l : List SimilarMatch}
    (h : l.Pairwise (fun a b => b.similarity ≤ a.similarity)) :
    (insertDesc x l).Pairwise (fun a b => b.similarity ≤ a.similarity) := by
  induction l with
  | nil => simp [insertDesc]
  | cons z zs ih =>
    rw [insertDesc]
    rw [List.pairwise_cons] at h
    split_ifs with hlt
    · refine List.pairwise_cons.2 ⟨?_, List.pairwise_cons.2 h⟩
      intro a ha
      rcases List.mem_cons.1 ha with rfl | ha
      · exact le_of_lt hlt
      · exact le_trans (h.1 a ha) (le_of_lt hlt)
    · refine List.pairwise_cons.2 ⟨?_, ih h.2⟩
      intro a ha
      rcases mem_insertDesc.1 ha with rfl | ha
      · exact le_of_not_lt hlt
      · exact h.1 a ha

lemma pairwise_sortBySimilarityDesc (l : List SimilarMatch) :
    (sortBySimilarityDesc l).Pairwise (fun a b => b.similarity ≤ a.similarity) := by
  induction l with
  | nil => exact List.Pairwise.nil
  | cons x xs ih => exact pairwise_insertDesc ih

lemma mem_sortBySimilarityDesc {y : SimilarMatch} {l : List SimilarMatch} :
    y ∈ sortBySimilarityDesc l ↔ y ∈ l := by
  induction l with
  | nil => simp [sortBySimilarityDesc]
  | cons x xs ih =>
    rw [sortBySimilarityDesc, mem_insertDesc]
    simp [ih]

/-- C5: every match returned by find_similar carries the query pattern
id, comes from the hashes indexed under that pattern id, is not the
query hash itself, has Jaccard similarity at least the threshold (its
similarity field being that value rounded to 3 decimals), and the
result list is sorted by similarity descending and truncated to
max_results. -/
theorem c5_find_similar_spec (self : SimilarityAnalyzer)
    (template_hash template : String) (pattern_id : Int) (max_results : ℕ)
    (_hwf : ∀ h ∈ (lookupA self.pattern_to_hashes pattern_id).getD [],
      (lookupA self.template_tokens h).isSome = true) :
    (∀ m ∈ find_similar self template_hash template pattern_id max_results,
      m.pattern_id = pattern_id ∧
      m.template_hash ∈ (lookupA self.pattern_to_hashes pattern_id).getD [] ∧
      m.template_hash ≠ template_hash ∧
      self.threshold ≤ jaccard_similarity (tokenize template)
        ((lookupA self.template_tokens m.template_hash).getD ∅) ∧
      m.similarity = round3 (jaccard_similarity (tokenize template)
        ((lookupA self.template_tokens m.template_hash).getD ∅))) ∧
    (find_similar self template_hash template pattern_id max_results).Pairwise
      (fun a b => b.similarity ≤ a.similarity) ∧
    (find_similar self template_hash template pattern_id max_results).length
      ≤ max_results := by
  refine ⟨?_, ?_, ?_⟩
  · intro m hm
    rw [find_similar] at hm
    have hm1 : m ∈ sortBySimilarityDesc _ := (List.take_sublist _ _).subset hm
    have hm2 := mem_sortBySimilarityDesc.1 hm1
    obtain ⟨a, ha, heq⟩ := List.mem_filterMap.1 hm2
    by_cases h1 : a = template_hash
    · rw [if_pos h1] at heq
      exact absurd heq (by simp)
    · rw [if_neg h1] at heq
      by_cases h2 : self.threshold ≤ jaccard_similarity (tokenize template)
          ((lookupA self.template_tokens a).getD ∅)
      · rw [if_pos h2] at heq
        obtain rfl := Option.some_inj.1 heq
        exact ⟨rfl, ha, h1, h2, rfl⟩
      · rw [if_neg h2] at heq
        exact absurd heq (by simp)
  · exact (pairwise_sortBySimilarityDesc _).sublist (List.take_sublist _ _)
  · rw [find_similar]
    rw [List.length_take]
    exact min_le_left _ _

/-- A two-entry concrete index used by the C5 witness. -/
def sampleAnalyzer : SimilarityAnalyzer :=
  index_template
    (index_template ⟨7/10, [], [], [], []⟩ "h2" "pattern:7|cmd:alpha beta gamma" 7)
    "h3" "pattern:7|cmd:alpha beta delta" 7

/-- Witness for C5 on a concrete two-entry index. -/
theorem c5_witness :
    (∀ m ∈ find_similar sampleAnalyzer "h1" "pattern:7|cmd:alpha beta gamma" 7 5,
      m.pattern_id = 7 ∧
      m.template_hash ∈ (lookupA sampleAnalyzer.pattern_to_hashes 7).getD [] ∧
      m.template_hash ≠ "h1" ∧
      sampleAnalyzer.threshold ≤
        jaccard_similarity (tokenize "pattern:7|cmd:alpha beta gamma")
          ((lookupA sampleAnalyzer.template_tokens m.template_hash).getD ∅) ∧
      m.similarity = round3 (jaccard_similarity (tokenize "pattern:7|cmd:alpha beta gamma")
        ((lookupA sampleAnalyzer.template_tokens m.template_hash).getD ∅))) ∧
    (find_similar sampleAnalyzer "h1" "pattern:7|cmd:alpha beta gamma" 7 5).Pairwise
      (fun a b => b.similarity ≤ a.similarity) ∧
    (find_similar sampleAnalyzer "h1" "pattern:7|cmd:alpha beta gamma" 7 5).length ≤ 5 :=
  c5_find_similar_spec sampleAnalyzer "h1" "pattern:7|cmd:alpha beta gamma" 7 5
    (by decide)

/-! ### C7: double indexing -/

lemma insertA_insertA {α β : Type} [DecidableEq α] (l : List (α × β)) (k : α)
    (v1 v2 : β) : insertA (insertA l k v1) k v2 = insertA l k v2 := by
  induction l with
  | nil => simp [insertA]
  | cons kv rest ih =>
    obtain ⟨k', v'⟩ := kv
    by_cases h : k' = k
    · simp [insertA, h]
    · simp [insertA, h, ih]

lemma lookupA_insertA_self {α β : Type} [DecidableEq α] (l : List (α × β))
    (k : α) (v : β) : lookupA (insertA l k v) k = some v := by
  induction l with
  | nil => simp [insertA, lookupA]
  | cons kv rest ih =>
    obtain ⟨k', v'⟩ := kv
    by_cases h : k' = k
    · simp [insertA, lookupA, h]
    · simp [insertA, lookupA, h, ih]

lemma mem_addToSet (s : List String) (x : String) : x ∈ addToSet s x := by
  by_cases h : x ∈ s <;> simp [addToSet, h]

lemma addToSet_of_mem {s : List String} {x : String} (h : x ∈ s) :
    addToSet s x = s := by simp [addToSet, h]

/-- Counterexample to C7 as stated: re-indexing hash h under a second
pattern id leaves h in the reverse index of the first pattern id, so the
two-call state differs from the state of the second call alone. -/
theorem c7_counterexample :
    index_template (index_template ⟨7/10, [], [], [], []⟩ "h" "alpha beta" 1)
        "h" "gamma delta" 2
      ≠ index_template ⟨7/10, [], [], [], []⟩ "h" "gamma delta" 2 := by
  intro heq
  exact absurd (congrArg SimilarityAnalyzer.pattern_to_hashes heq) (by decide)

/-- C7 amended: indexing the same hash twice is idempotent with
last-write-wins semantics when the two calls use the same pattern id
(with different pattern ids the hash additionally stays in the old
pattern id reverse index). -/
theorem c7_amended (self : SimilarityAnalyzer) (h t1 t2 : String) (p : Int) :
    index_template (index_template self h t1 p) h t2 p
      = index_template self h t2 p := by
  rw [index_template, index_template, index_template]
  dsimp only
  rw [SimilarityAnalyzer.mk.injEq]
  refine ⟨rfl, insertA_insertA _ _ _ _, insertA_insertA _ _ _ _,
    insertA_insertA _ _ _ _, ?_⟩
  rw [lookupA_insertA_self, Option.getD_some, addToSet_of_mem (mem_addToSet _ _),
    insertA_insertA]

end SimilarityAnalyzer

/-! ## sanitizer.py

The sanitization rules are Python regular expressions applied with
`re.sub(pattern, replacement, text, flags=re.IGNORECASE)`.  Each rule is
modelled by a hand-translated matcher over character lists: a matcher
receives the character preceding the current position (for word
boundaries) and the remaining suffix, and returns the number of
characters the leftmost match starting here consumes together with the
replacement text.  The generic scanner `subScan` below then implements
re.sub: scan left to right, emit unmatched characters unchanged, and on
a match emit the replacement and continue after the match.  Greedy
quantifiers with backtracking are translated per pattern; each matcher
carries a comment arguing the translation.  Word characters and
whitespace are modelled over ASCII (Python uses the Unicode classes;
command lines are ASCII in this domain). -/

namespace Sanitizer

/-- ASCII model of the regex word class: letters, digits, underscore. -/
def isWordChar (c : Char) : Bool := c.isAlphanum || c = '_'

/-- ASCII model of the regex whitespace class. -/
def isSpaceChar (c : Char) : Bool :=
  c = ' ' || c = '\t' || c = '\n' || c = '\r' || c = '\x0b' || c = '\x0c'

/-- The base64 alphabet class of rule 9. -/
def isBase64Char (c : Char) : Bool := c.isAlphanum || c = '+' || c = '/'

/-- The hexadecimal class of rule 10 (both cases). -/
def isHexChar (c : Char) : Bool :=
  c.isDigit || (97 ≤ c.toNat && c.toNat ≤ 102) || (65 ≤ c.toNat && c.toNat ≤ 70)

/-- A word boundary between two optional characters: at the string ends
it requires the adjacent character to be a word character, in the
middle exactly one side must be a word character. -/
def boundaryAt : Option Char → Option Char → Bool
  | none, none => false
  | none, some c => isWordChar c
  | some c, none => isWordChar c
  | some a, some b => isWordChar a != isWordChar b

/-- Length of the maximal prefix of characters satisfying p (the text a
greedy character-class quantifier consumes before backtracking). -/
def runLength (p : Char → Bool) : List Char → ℕ
  | [] => 0
  | c :: rest => if p c then runLength p rest + 1 else 0

/-- Word boundary inside a list, between positions k-1 and k (callers
always use k ≥ 1). -/
def boundaryAfter (l : List Char) (k : ℕ) : Bool := boundaryAt l[k-1]? l[k]?

/-- Case-insensitive literal match; returns the rest of the input. -/
def matchCI : List Char → List Char → Option (List Char)
  | [], l => some l
  | _ :: _, [] => none
  | p :: ps, c :: cs => if c.toLower = p.toLower then matchCI ps cs else none

/-- A matcher: previous original character, remaining input, and on a
match the consumed length with the replacement text. -/
abbrev Matcher := Option Char → List Char → Option (ℕ × List Char)

/-- `re.sub` over one pattern: scan positions left to right; where the
matcher fails copy one character, where it succeeds emit the
replacement and resume after the consumed text, remembering the last
original character for the next boundary test.  A zero-width match
emits the replacement and advances one character (Python semantics;
none of the matchers below can return 0). -/
def subScan (tm : Matcher) : Option Char → List Char → List Char
  | _, [] => []
  | prev, c :: rest =>
    match tm prev (c :: rest) with
    | none => c :: subScan tm (some c) rest
    | some (n, repl) =>
      if n = 0 then repl ++ c :: subScan tm (some c) rest
      else repl ++ subScan tm (some ((c :: rest).getD (n - 1) c)) ((c :: rest).drop n)
termination_by _ l => l.length
decreasing_by
  all_goals simp only [List.length_drop, List.length_cons]
  all_goals omega

/-! ### Rule matchers -/

/-- Consume exactly n characters of class p; returns the rest. -/
def takeClassN (p : Char → Bool) : ℕ → List Char → Option (List Char)
  | 0, l => some l
  | _ + 1, [] => none
  | n + 1, c :: cs => if p c then takeClassN p n cs else none

/-- Well-known-SID replacement: the pattern is word boundary, the
escaped SID literal (case-insensitively), word boundary. -/
def tmLiteralWB (pat repl : List Char) : Matcher := fun prev l =>
  if !boundaryAt prev l.head? then none
  else
    match matchCI pat l with
    | none => none
    | some _ =>
      if boundaryAfter l pat.length then some (pat.length, repl) else none

/-- Rule 1, IPv4: word boundary, four runs of one to three digits
separated by dots, word boundary.  The greedy digit quantifiers are
deterministic here: a digit run can only be followed by the literal dot
at its own end, and the final boundary can only sit at the end of the
last run, so the regex matches exactly when each run has length one to
three. -/
def tmIPv4 : Matcher := fun prev l =>
  if !boundaryAt prev l.head? then none
  else
    let d1 := runLength Char.isDigit l
    if d1 = 0 || 3 < d1 then none
    else if l[d1]? ≠ some '.' then none
    else
      let l2 := l.drop (d1 + 1)
      let d2 := runLength Char.isDigit l2
      if d2 = 0 || 3 < d2 then none
      else if l2[d2]? ≠ some '.' then none
      else
        let l3 := l2.drop (d2 + 1)
        let d3 := runLength Char.isDigit l3
        if d3 = 0 || 3 < d3 then none
        else if l3[d3]? ≠ some '.' then none
        else
          let l4 := l3.drop (d3 + 1)
          let d4 := runLength Char.isDigit l4
          if d4 = 0 || 3 < d4 then none
          else if !boundaryAfter l (d1 + 1 + d2 + 1 + d3 + 1 + d4) then none
          else some (d1 + 1 + d2 + 1 + d3 + 1 + d4, "<IP>".data)

/-- Helper for rule 2: consumes k groups of one-to-four hex digits each
followed by a colon (deterministic for the same reason as IPv4). -/
def ipv6Groups : ℕ → List Char → Option ℕ
  | 0, _ => some 0
  | k + 1, l =>
    let h := runLength isHexChar l
    if h = 0 || 4 < h then none
    else if l[h]? ≠ some ':' then none
    else (ipv6Groups k (l.drop (h + 1))).map (· + h + 1)

/-- Rule 2, IPv6: word boundary, seven hex groups with colons, a final
hex group of one to four digits, word boundary. -/
def tmIPv6 : Matcher := fun prev l =>
  if !boundaryAt prev l.head? then none
  else
    match ipv6Groups 7 l with
    | none => none
    | some k =>
      let h := runLength isHexChar (l.drop k)
      if h = 0 || 4 < h then none
      else if !boundaryAfter l (k + h) then none
      else some (k + h, "<IP>".data)

/-- Rule 3, GUID: optional opening brace, 8-4-4-4-12 hex digits with
dashes, optional closing brace; no word boundaries.  The fixed-count
quantifiers are deterministic; a longer hex run simply fails at the
following literal dash.  The optional leading brace is consumed exactly
when present, since the body cannot start with a brace; the optional
trailing brace is consumed exactly when present. -/
def tmGUID : Matcher := fun _prev l =>
  let (pre, body) := if l.head? = some '{' then (1, l.drop 1) else (0, l)
  let step := fun (n : ℕ) (r : List Char) => takeClassN isHexChar n r
  match step 8 body with
  | none => none
  | some r1 =>
    if r1.head? ≠ some '-' then none
    else match step 4 (r1.drop 1) with
    | none => none
    | some r2 =>
      if r2.head? ≠ some '-' then none
      else match step 4 (r2.drop 1) with
      | none => none
      | some r3 =>
        if r3.head? ≠ some '-' then none
        else match step 4 (r3.drop 1) with
        | none => none
        | some r4 =>
          if r4.head? ≠ some '-' then none
          else match step 12 (r4.drop 1) with
          | none => none
          | some r5 =>
            let post := if r5.head? = some '}' then 1 else 0
            some (pre + 36 + post, "<GUID>".data)

/-- The class excluding whitespace and double or single quotes, used by
the temp-path rules. -/
def isPathTailChar (c : Char) : Bool :=
  !(isSpaceChar c) && c ≠ '"' && c ≠ '\''

/-- Rule 4, Windows temp path: drive letter C, colon, backslash, then
one of three alternatives (a Users profile temp directory, the Windows
temp directory, or a bare Temp directory), then a backslash and a
nonempty run of non-space non-quote characters.  The alternatives are
tried in order; inside the first, the non-backslash run before AppData
is deterministic because it can only end at the next backslash. -/
def tmWinTemp : Matcher := fun _prev l =>
  match matchCI "c:\\".data l with
  | none => none
  | some rest =>
    let branch1 : Option ℕ :=
      match matchCI "users\\".data rest with
      | none => none
      | some r1 =>
        let u := runLength (fun c => c ≠ '\\') r1
        if u = 0 then none
        else match matchCI "\\appdata\\local\\temp".data (r1.drop u) with
          | none => none
          | some _ => some (6 + u + 19)
    let branch2 : Option ℕ :=
      match matchCI "windows\\temp".data rest with
      | none => none
      | some _ => some 12
    let branch3 : Option ℕ :=
      match matchCI "temp".data rest with
      | none => none
      | some _ => some 4
    let finish : ℕ → Option (ℕ × List Char) := fun mid =>
      let afterMid := rest.drop mid
      if afterMid.head? ≠ some '\\' then none
      else
        let t := runLength isPathTailChar (afterMid.drop 1)
        if t = 0 then none
        else some (3 + mid + 1 + t, "<TEMP>".data)
    match branch1 with
    | some m =>
      match finish m with
      | some res => some res
      | none =>
        match branch2 with
        | some m2 =>
          match finish m2 with
          | some res => some res
          | none => branch3.bind finish
        | none => branch3.bind finish
    | none =>
      match branch2 with
      | some m2 =>
        match finish m2 with
        | some res => some res
        | none => branch3.bind finish
      | none => branch3.bind finish

/-- Rule 5, Linux temp path: a slash, then tmp or var/tmp, then a slash
and a nonempty run of non-space non-quote characters; alternatives
tried in order with the common tail. -/
def tmLinTemp : Matcher := fun _prev l =>
  if l.head? ≠ some '/' then none
  else
    let rest := l.drop 1
    let finish : ℕ → Option (ℕ × List Char) := fun mid =>
      let afterMid := rest.drop mid
      if afterMid.head? ≠ some '/' then none
      else
        let t := runLength isPathTailChar (afterMid.drop 1)
        if t = 0 then none
        else some (1 + mid + 1 + t, "<TEMP>".data)
    let branch1 : Option ℕ :=
      (matchCI "tmp".data rest).map (fun _ => 3)
    let branch2 : Option ℕ :=
      (matchCI "var/tmp".data rest).map (fun _ => 7)
    match branch1 with
    | some m =>
      match finish m with
      | some res => some res
      | none => branch2.bind finish
    | none => branch2.bind finish

/-- One host label followed by a dot: a letter or digit, then a run of
letters, digits and dashes, then a literal dot.  Deterministic: the dot
is not in the run class, so only the maximal run can precede it. -/
def labelDot (l : List Char) : Option ℕ :=
  match l with
  | [] => none
  | c :: _ =>
    if !c.isAlphanum then none
    else if l[runLength (fun d => d.isAlphanum || d = '-') l]? = some '.' then
      some (runLength (fun d => d.isAlphanum || d = '-') l + 1)
    else none

/-- A top-level-domain run: two or more letters, greedy. -/
def tldRun (l : List Char) : Option ℕ :=
  let r := runLength Char.isAlpha l
  if 2 ≤ r then some r else none

lemma labelDot_pos {l : List Char} {k : ℕ} (h : labelDot l = some k) :
    1 ≤ k ∧ l ≠ [] := by
  cases l with
  | nil => simp [labelDot] at h
  | cons c rest =>
    rw [labelDot] at h
    refine ⟨?_, by simp⟩
    split at h
    · exact absurd h (by simp)
    · split at h
      · rw [Option.some_inj] at h
        omega
      · exact absurd h (by simp)

/-- Matches zero or more host labels followed by a TLD run, preferring
more labels, with full backtracking: if the deeper parse fails the last
label is given up and a TLD is tried at the current position, exactly
the backtracking order of the regex group. -/
def hostTail (l : List Char) : Option ℕ :=
  match h : labelDot l with
  | some k =>
    match hostTail (l.drop k) with
    | some m => some (k + m)
    | none => tldRun l
  | none => tldRun l
termination_by l.length
decreasing_by
  have h2 := labelDot_pos h
  have h3 : 0 < l.length := List.length_pos.2 h2.2
  simp only [List.length_drop]
  omega

/-- Rule 6, URL hostname: http or https and colon-slash-slash
(case-insensitively), then one or more labels and a TLD.  The
replacement keeps the matched protocol (group 1) and replaces the host
with the HOST token. -/
def tmURL : Matcher := fun _prev l =>
  match matchCI "http".data l with
  | none => none
  | some rest4 =>
    let proto : Option ℕ :=
      match matchCI "s://".data rest4 with
      | some _ => some 8
      | none =>
        match matchCI "://".data rest4 with
        | some _ => some 7
        | none => none
    match proto with
    | none => none
    | some p =>
      match labelDot (l.drop p) with
      | none => none
      | some k =>
        match hostTail (l.drop (p + k)) with
        | none => none
        | some m => some (p + k + m, l.take p ++ "<HOST>".data)

/-- Exactly n digits at positions k to k+n-1. -/
def digitsAt (l : List Char) (k n : ℕ) : Bool :=
  match takeClassN Char.isDigit n (l.drop k) with
  | some _ => true
  | none => false

/-- The optional timezone of rule 7 at position k, followed by a word
boundary.  Tried in regex backtracking order: the letter Z, a sign with
hh colon mm, a sign with hhmm, then no timezone at all. -/
def isoTzEnd (l : List Char) (k : ℕ) : Option ℕ :=
  let signAt :=
    match l[k]? with
    | some c => c = '+' || c = '-'
    | none => false
  let zAt :=
    match l[k]? with
    | some c => c.toLower = 'z'
    | none => false
  if zAt && boundaryAfter l (k + 1) then some (k + 1)
  else if signAt && digitsAt l (k + 1) 2 && l[k + 3]? = some ':' &&
      digitsAt l (k + 4) 2 && boundaryAfter l (k + 6) then some (k + 6)
  else if signAt && digitsAt l (k + 1) 2 && digitsAt l (k + 3) 2 &&
      boundaryAfter l (k + 5) then some (k + 5)
  else if boundaryAfter l k then some k
  else none

/-- The tail of rule 7 after the 19 fixed characters: an optional
fraction (a dot and a nonempty digit run; only the full run can precede
a character outside the digit class, so it is deterministic) and the
optional timezone.  The fraction-present parse is tried first and the
fraction is dropped on failure, as the regex backtracks. -/
def tmISOend (l : List Char) (base : ℕ) : Option ℕ :=
  let fr : Option ℕ :=
    if l[base]? = some '.' then
      let d := runLength Char.isDigit (l.drop (base + 1))
      if d = 0 then none else some (1 + d)
    else none
  match fr with
  | some f =>
    match isoTzEnd l (base + f) with
    | some e => some e
    | none => isoTzEnd l base
  | none => isoTzEnd l base

/-- Rule 7, ISO timestamp: word boundary, a 19-character date-time core
(four digits, separator, two digits, separator, two digits, the letter
T or a space, and hh:mm:ss), optional fraction and timezone, word
boundary.  The fixed-count digit groups are deterministic: extra digits
make the following literal fail. -/
def tmISO : Matcher := fun prev l =>
  if !boundaryAt prev l.head? then none
  else
    let sepOk := fun (o : Option Char) => o = some '-' || o = some '/'
    if !(digitsAt l 0 4 && sepOk l[4]? && digitsAt l 5 2 && sepOk l[7]? &&
        digitsAt l 8 2) then none
    else
      let tOk :=
        match l[10]? with
        | some c => c.toLower = 't' || isSpaceChar c
        | none => false
      if !(tOk && digitsAt l 11 2 && l[13]? = some ':' && digitsAt l 14 2 &&
          l[16]? = some ':' && digitsAt l 17 2) then none
      else (tmISOend l 19).map (fun e => (e, "<TIME>".data))

/-- Rule 8, Unix epoch: word boundary, the digit 1, nine to twelve more
digits, word boundary.  Only the full digit run can precede the final
boundary (shorter prefixes abut a digit), so the regex matches exactly
when the run after the 1 has length nine to twelve and a boundary
follows. -/
def tmEpoch : Matcher := fun prev l =>
  if !boundaryAt prev l.head? then none
  else if l.head? ≠ some '1' then none
  else
    let r := runLength Char.isDigit (l.drop 1)
    if r < 9 || 12 < r then none
    else if !boundaryAfter l (1 + r) then none
    else some (1 + r, "<TIME>".data)

/-- The equals-sign padding of rule 9 at position k: j equals signs
(j at most jmax, counting down, greedy) such that a word boundary
follows position k+j. -/
def eqTryAt (l : List Char) (k : ℕ) : ℕ → Option ℕ
  | 0 => if boundaryAfter l k then some 0 else none
  | j + 1 => if boundaryAfter l (k + j + 1) then some (j + 1) else eqTryAt l k j

/-- The class-run backtracking of rules 9 and 10: the greedy class run
is shortened from its maximal length down to the minimum; for each
length the padding is tried greedily; the first end with a word
boundary wins.  Exactly the regex backtracking order for a pattern of
the shape word boundary, class repeated at least minLen times, up to
maxEq equals signs, word boundary. -/
def bcsSearch (l : List Char) (maxEq minLen : ℕ) : ℕ → Option ℕ
  | 0 => none
  | k + 1 =>
    if k + 1 < minLen then none
    else
      match eqTryAt l (k + 1)
          (min maxEq (runLength (fun c => c = '=') (l.drop (k + 1)))) with
      | some j => some (k + 1 + j)
      | none => bcsSearch l maxEq minLen k

/-- Rules 9 and 10 share this shape: word boundary, a character-class
run of at least minLen, up to maxEq equals signs, word boundary. -/
def tmBCS (cls : Char → Bool) (minLen maxEq : ℕ) (repl : List Char) : Matcher :=
  fun prev l =>
    if !boundaryAt prev l.head? then none
    else
      let L := runLength cls l
      if L < minLen then none
      else (bcsSearch l maxEq minLen L).map (fun e => (e, repl))

/-- Rule 11, domain SID: the literal S-1-5-21- (case-insensitively),
three nonempty digit runs separated by dashes, and an optional fourth
dash-digit-run group; no word boundaries.  Greedy digit runs are
deterministic before a literal dash. -/
def tmDomainSid : Matcher := fun _prev l =>
  match matchCI "s-1-5-21-".data l with
  | none => none
  | some r =>
    let d1 := runLength Char.isDigit r
    if d1 = 0 then none
    else if r[d1]? ≠ some '-' then none
    else
      let r2 := r.drop (d1 + 1)
      let d2 := runLength Char.isDigit r2
      if d2 = 0 then none
      else if r2[d2]? ≠ some '-' then none
      else
        let r3 := r2.drop (d2 + 1)
        let d3 := runLength Char.isDigit r3
        if d3 = 0 then none
        else
          let r4 := r3.drop d3
          let opt :=
            if r4.head? = some '-' then
              let d4 := runLength Char.isDigit (r4.drop 1)
              if d4 = 0 then 0 else 1 + d4
            else 0
          some (9 + d1 + 1 + d2 + 1 + d3 + opt, "<SID>".data)

/-- Rule 12, process id: word boundary, the letters pid, a nonempty run
of colons and whitespace, a nonempty digit run, word boundary; each
greedy run is deterministic because the following class is disjoint. -/
def tmPID : Matcher := fun prev l =>
  if !boundaryAt prev l.head? then none
  else
    match matchCI "pid".data l with
    | none => none
    | some r =>
      let s := runLength (fun c => c = ':' || isSpaceChar c) r
      if s = 0 then none
      else
        let d := runLength Char.isDigit (r.drop s)
        if d = 0 then none
        else if !boundaryAfter l (3 + s + d) then none
        else some (3 + s + d, "<PID>".data)

/-- Rule 13, random alphanumeric run: word boundary, a lookahead
demanding a digit after the maximal letter prefix (the only character a
letter-star followed by a digit can stop at), a lookahead demanding a
letter after the maximal digit prefix, then an alphanumeric run of at
least twelve and a word boundary (again only the full run can precede
the boundary). -/
def tmRAND : Matcher := fun prev l =>
  if !boundaryAt prev l.head? then none
  else
    let la1 :=
      match l[runLength Char.isAlpha l]? with
      | some c => c.isDigit
      | none => false
    let la2 :=
      match l[runLength Char.isDigit l]? with
      | some c => c.isAlpha
      | none => false
    if !la1 || !la2 then none
    else
      let r := runLength Char.isAlphanum l
      if r < 12 then none
      else if !boundaryAfter l r then none
      else some (r, "<RAND>".data)

/-- The WELL_KNOWN_SIDS table of sanitizer.py, in source order (order
matters: substitution is applied per entry in this order). -/
def WELL_KNOWN_SIDS : List (String × String) := [
  ("S-1-1-0", "<Everyone>"),
  ("S-1-5-2", "<Network>"),
  ("S-1-5-3", "<Batch>"),
  ("S-1-5-4", "<Interactive>"),
  ("S-1-5-6", "<Service>"),
  ("S-1-5-7", "<Anonymous>"),
  ("S-1-5-11", "<AuthenticatedUsers>"),
  ("S-1-5-113", "<LocalAccount>"),
  ("S-1-5-114", "<LocalAccountAndAdministrator>"),
  ("S-1-5-18", "<LocalSystem>"),
  ("S-1-5-19", "<LocalService>"),
  ("S-1-5-20", "<NetworkService>"),
  ("S-1-5-32-544", "<Administrators>"),
  ("S-1-5-32-545", "<Users>"),
  ("S-1-5-32-546", "<Guests>"),
  ("S-1-5-32-547", "<PowerUsers>"),
  ("S-1-5-32-548", "<AccountOperators>"),
  ("S-1-5-32-549", "<ServerOperators>"),
  ("S-1-5-32-550", "<PrintOperators>"),
  ("S-1-5-32-551", "<BackupOperators>")]

/-- `_replace_well_known_sids`: one boundary-delimited case-insensitive
literal substitution per table entry, in table order. -/
def replace_well_known_sids (l : List Char) : List Char :=
  WELL_KNOWN_SIDS.foldl
    (fun acc p => subScan (tmLiteralWB p.1.data p.2.data) none acc) l

/-- SANITIZATION_RULES, in source order. -/
def SANITIZATION_RULES : List Matcher :=
  [tmIPv4, tmIPv6, tmGUID, tmWinTemp, tmLinTemp, tmURL, tmISO, tmEpoch,
   tmBCS isBase64Char 20 2 "<DATA>".data, tmBCS isHexChar 32 0 "<HEX>".data,
   tmDomainSid, tmPID, tmRAND]

/-- `result.split()` on whitespace, no empty segments. -/
def pySplit : List Char → List Char → List (List Char)
  | [], acc => if acc.isEmpty then [] else [acc.reverse]
  | c :: rest, acc =>
    if isSpaceChar c then
      if acc.isEmpty then pySplit rest [] else acc.reverse :: pySplit rest []
    else pySplit rest (c :: acc)

/-- Joining the split words with single spaces. -/
def joinSpace : List (List Char) → List Char
  | [] => []
  | [w] => w
  | w :: ws => w ++ ' ' :: joinSpace ws

/-- The final whitespace normalization of sanitize. -/
def normalizeWS (l : List Char) : List Char := joinSpace (pySplit l [])

/-- `Sanitizer.sanitize(text)`: empty and None input give the empty
string; otherwise the well-known-SID replacement, the thirteen rules in
order, and whitespace normalization. -/
def sanitize (text : Option String) : String :=
  match text with
  | none => ""
  | some t =>
    if t = "" then ""
    else
      String.mk (normalizeWS (SANITIZATION_RULES.foldl
        (fun acc tm => subScan tm none acc) (replace_well_known_sids t.data)))

/-! ### hashlib.sha256 (FIPS 180-4) and UTF-8 encoding -/

/-- UTF-8 encoding of one character, as Python str.encode produces. -/
def utf8Encode (c : Char) : List ℕ :=
  let n := c.toNat
  if n < 128 then [n]
  else if n < 2048 then [192 + n / 64, 128 + n % 64]
  else if n < 65536 then [224 + n / 4096, 128 + n / 64 % 64, 128 + n % 64]
  else [240 + n / 262144, 128 + n / 4096 % 64, 128 + n / 64 % 64, 128 + n % 64]

/-- The UTF-8 bytes of a string. -/
def utf8Bytes (s : String) : List ℕ := (s.data.map utf8Encode).flatten

/-- Right rotation of a 32-bit word. -/
def rotr32 (x k : ℕ) : ℕ := ((x >>> k) ||| (x <<< (32 - k))) % 4294967296

/-- The 64 SHA-256 round constants. -/
def K256 : List ℕ := [
  1116352408, 1899447441, 3049323471, 3921009573, 961987163,
  1508970993, 2453635748, 2870763221, 3624381080, 310598401,
  607225278, 1426881987, 1925078388, 2162078206, 2614888103,
  3248222580, 3835390401, 4022224774, 264347078, 604807628,
  770255983, 1249150122, 1555081692, 1996064986, 2554220882,
  2821834349, 2952996808, 3210313671, 3336571891, 3584528711,
  113926993, 338241895, 666307205, 773529912, 1294757372,
  1396182291, 1695183700, 1986661051, 2177026350, 2456956037,
  2730485921, 2820302411, 3259730800, 3345764771, 3516065817,
  3600352804, 4094571909, 275423344, 430227734, 506948616,
  659060556, 883997877, 958139571, 1322822218, 1537002063,
  1747873779, 1955562222, 2024104815, 2227730452, 2361852424,
  2428436474, 2756734187, 3204031479, 3329325298]

/-- The initial SHA-256 hash value. -/
def H256 : List ℕ := [
  1779033703, 3144134277, 1013904242, 2773480762, 1359893119,
  2600822924, 528734635, 1541459225]

/-- k bytes of v, big-endian. -/
def beBytes : ℕ → ℕ → List ℕ
  | 0, _ => []
  | k + 1, v => beBytes k (v / 256) ++ [v % 256]

/-- SHA-256 padding: a 0x80 byte, zeros, and the 64-bit big-endian bit
length, to a multiple of 64 bytes. -/
def shaPad (m : List ℕ) : List ℕ :=
  m ++ 0x80 :: List.replicate ((64 - (m.length + 9) % 64) % 64) 0 ++
    beBytes 8 (8 * m.length)

/-- Big-endian 32-bit words from bytes. -/
def bytesToWords : List ℕ → List ℕ
  | b0 :: b1 :: b2 :: b3 :: rest =>
    (b0 * 16777216 + b1 * 65536 + b2 * 256 + b3) :: bytesToWords rest
  | _ => []

/-- 64-byte blocks (fuel-based so that the kernel can evaluate it). -/
def chunks64 : ℕ → List ℕ → List (List ℕ)
  | 0, _ => []
  | _, [] => []
  | fuel + 1, l => l.take 64 :: chunks64 fuel (l.drop 64)

def smallSigma0 (x : ℕ) : ℕ := rotr32 x 7 ^^^ rotr32 x 18 ^^^ (x >>> 3)

def smallSigma1 (x : ℕ) : ℕ := rotr32 x 17 ^^^ rotr32 x 19 ^^^ (x >>> 10)

def bigSigma0 (x : ℕ) : ℕ := rotr32 x 2 ^^^ rotr32 x 13 ^^^ rotr32 x 22

def bigSigma1 (x : ℕ) : ℕ := rotr32 x 6 ^^^ rotr32 x 11 ^^^ rotr32 x 25

def chF (x y z : ℕ) : ℕ := (x &&& y) ^^^ ((x ^^^ 0xffffffff) &&& z)

def majF (x y z : ℕ) : ℕ := (x &&& y) ^^^ (x &&& z) ^^^ (y &&& z)

/-- Extends the 16 message-schedule words by n more. -/
def extendSchedule : ℕ → List ℕ → List ℕ
  | 0, w => w
  | n + 1, w =>
    let i := w.length
    extendSchedule n (w ++ [(smallSigma1 (w.getD (i - 2) 0) + w.getD (i - 7) 0 +
      smallSigma0 (w.getD (i - 15) 0) + w.getD (i - 16) 0) % 4294967296])

/-- One compression round. -/
def shaRound (st : ℕ × ℕ × ℕ × ℕ × ℕ × ℕ × ℕ × ℕ) (kw : ℕ × ℕ) :
    ℕ × ℕ × ℕ × ℕ × ℕ × ℕ × ℕ × ℕ :=
  match st with
  | (a, b, c, d, e, f, g, h) =>
    let t1 := (h + bigSigma1 e + chF e f g + kw.1 + kw.2) % 4294967296
    let t2 := (bigSigma0 a + majF a b c) % 4294967296
    ((t1 + t2) % 4294967296, a, b, c, (d + t1) % 4294967296, e, f, g)

/-- Compression of one 64-byte block into the running hash (always an
8-word list). -/
def processBlock (hs : List ℕ) (block : List ℕ) : List ℕ :=
  let ws := extendSchedule 48 (bytesToWords block)
  let st0 := (hs.getD 0 0, hs.getD 1 0, hs.getD 2 0, hs.getD 3 0,
    hs.getD 4 0, hs.getD 5 0, hs.getD 6 0, hs.getD 7 0)
  match (K256.zip ws).foldl shaRound st0 with
  | (a, b, c, d, e, f, g, h) =>
    [(hs.getD 0 0 + a) % 4294967296, (hs.getD 1 0 + b) % 4294967296,
     (hs.getD 2 0 + c) % 4294967296, (hs.getD 3 0 + d) % 4294967296,
     (hs.getD 4 0 + e) % 4294967296, (hs.getD 5 0 + f) % 4294967296,
     (hs.getD 6 0 + g) % 4294967296, (hs.getD 7 0 + h) % 4294967296]

/-- The 32 digest bytes of a byte message. -/
def sha256Bytes (m : List ℕ) : List ℕ :=
  let padded := shaPad m
  ((chunks64 padded.length padded).foldl processBlock H256).map (beBytes 4) |>.flatten

/-- The sixteen lowercase hexadecimal digits. -/
def hexDigits : List Char := "0123456789abcdef".data

/-- Two lowercase hex characters of a byte. -/
def byteToHex (b : ℕ) : List Char :=
  [hexDigits.getD (b / 16) '0', hexDigits.getD (b % 16) '0']

/-- `hashlib.sha256(s.encode(utf-8)).hexdigest()`. -/
def sha256Hex (s : String) : String :=
  String.mk (((sha256Bytes (utf8Bytes s)).map byteToHex).flatten)

/-- FIPS 180-2 test vector for the implementation above. -/
lemma sha256Hex_abc :
    sha256Hex "abc"
      = "ba7816bf8f01cfea414140de5dae2223b00361a396177a9cb410ff61f20015ad" := by
  decide

/-- Empty-message test vector. -/
lemma sha256Hex_empty :
    sha256Hex ""
      = "e3b0c44298fc1c149afbf4c8996fb92427ae41e4649b934ca495991b7852b855" := by
  decide

/-- `Sanitizer.hash_template(template)`: SHA-256 hex digest of the
UTF-8 encoded template.  The source has no None guard; calling
encode on None raises AttributeError, modelled as an error value. -/
def hash_template (template : Option String) : Except String String :=
  match template with
  | some t => .ok (sha256Hex t)
  | none => .error "AttributeError: NoneType object has no attribute encode"

/-! ### generate_template -/

/-- Python values the pattern_id field can hold. -/
inductive PyVal where
  | vnone
  | vint (n : ℤ)
  | vstr (s : String)
  deriving DecidableEq

/-- Python str() of such a value. -/
def pyStr : PyVal → String
  | .vnone => "None"
  | .vint n => toString n
  | .vstr s => s

/-- The parent_details dict as read by generate_template: only its
filename key matters; `none` models an absent key, `some none` a None
value. -/
structure ParentDetailsDict where
  filename : Option (Option String) := none

/-- A raw alert as read by generate_template.  Each outer `none` models
an absent key.  For parent_details, `some none` is a None value and
`some (some d)` a non-empty (truthy) dict; an empty dict is falsy in
Python and behaves exactly like the None value here. -/
structure AlertQA where
  pattern_id : Option PyVal := none
  cmdline : Option (Option String) := none
  filename : Option (Option String) := none
  parent_details : Option (Option ParentDetailsDict) := none

/-- `Sanitizer.generate_template(alert)`: the pipe-joined template.
The join of the four parts is spelled out. -/
def generate_template (alert : AlertQA) : String :=
  let pattern_id := pyStr (alert.pattern_id.getD (.vint 0))
  let cmdline := sanitize (alert.cmdline.getD (some ""))
  let parent_filename : Option String :=
    match alert.parent_details with
    | none => some ""
    | some none => some ""
    | some (some d) => d.filename.getD (some "")
  let filename := alert.filename.getD (some "")
  let part2 := if cmdline ≠ "" then "cmd:" ++ cmdline else "cmd:"
  let part3 :=
    match filename with
    | some s => if s ≠ "" then "file:" ++ s else "file:"
    | none => "file:"
  let part4 :=
    match parent_filename with
    | some s => if s ≠ "" then "parent:" ++ s else "parent:"
    | none => "parent:"
  "pattern:" ++ pattern_id ++ "|" ++ part2 ++ "|" ++ part3 ++ "|" ++ part4

/-! ### Digest length lemmas -/

lemma beBytes_length (k v : ℕ) : (beBytes k v).length = k := by
  induction k generalizing v with
  | zero => rfl
  | succ n ih => simp [beBytes, ih]

lemma foldl_processBlock_length (bs : List (List ℕ)) (hs : List ℕ)
    (h : hs.length = 8) : (bs.foldl processBlock hs).length = 8 := by
  induction bs generalizing hs with
  | nil => exact h
  | cons b rest ih =>
    apply ih
    rw [processBlock]
    rcases hfold : (K256.zip (extendSchedule 48 (bytesToWords b))).foldl shaRound
      (hs.getD 0 0, hs.getD 1 0, hs.getD 2 0, hs.getD 3 0,
        hs.getD 4 0, hs.getD 5 0, hs.getD 6 0, hs.getD 7 0) with
      ⟨a, b2, c, d, e, f, g, h8⟩
    simp

lemma flatten_map_beBytes4_length (ws : List ℕ) :
    ((ws.map (beBytes 4)).flatten).length = 4 * ws.length := by
  induction ws with
  | nil => rfl
  | cons w rest ih =>
    simp only [List.map_cons, List.flatten_cons, List.length_append,
      beBytes_length, ih, List.length_cons]
    omega

lemma sha256Bytes_length (m : List ℕ) : (sha256Bytes m).length = 32 := by
  rw [sha256Bytes]
  rw [flatten_map_beBytes4_length,
    foldl_processBlock_length (chunks64 (shaPad m).length (shaPad m)) H256 rfl]

lemma getD_mem {α : Type} (l : List α) (i : ℕ) (d : α) (hd : d ∈ l) :
    l.getD i d ∈ l := by
  rw [List.getD_eq_getElem?_getD]
  cases hv : l[i]? with
  | none => simpa using hd
  | some v =>
    simp only [hv, Option.getD_some]
    exact List.getElem?_mem hv

lemma mem_byteToHex {c : Char} {b : ℕ} (h : c ∈ byteToHex b) : c ∈ hexDigits := by
  rw [byteToHex] at h
  rcases List.mem_cons.1 h with rfl | h2
  · exact getD_mem _ _ _ (by decide)
  · rcases List.mem_cons.1 h2 with rfl | h3
    · exact getD_mem _ _ _ (by decide)
    · exact absurd h3 (by simp)

lemma flatten_chars_mem {c : Char} {bs : List ℕ}
    (h : c ∈ ((bs.map byteToHex).flatten)) : c ∈ hexDigits := by
  rw [List.mem_flatten] at h
  obtain ⟨w, hw, hc⟩ := h
  rw [List.mem_map] at hw
  obtain ⟨b, _, rfl⟩ := hw
  exact mem_byteToHex hc

lemma flatten_map_byteToHex_length (bs : List ℕ) :
    ((bs.map byteToHex).flatten).length = 2 * bs.length := by
  induction bs with
  | nil => rfl
  | cons b rest ih =>
    have hb : (byteToHex b).length = 2 := rfl
    simp only [List.map_cons, List.flatten_cons, List.length_append, ih,
      List.length_cons, hb]
    omega

lemma sha256Hex_length (s : String) : (sha256Hex s).length = 64 := by
  show (String.mk _).length = 64
  have hmk : ∀ l : List Char, (String.mk l).length = l.length := fun _ => rfl
  rw [hmk, flatten_map_byteToHex_length, sha256Bytes_length]

/-! ### C8 and C10 theorems -/

/-- Counterexample to C8 as stated: hash_template of a null template
raises (the source calls encode on None), so it does not return a
digest for null input. -/
theorem c8_counterexample :
    hash_template none
      = Except.error "AttributeError: NoneType object has no attribute encode" ∧
    ¬∃ d : String, hash_template none = Except.ok d :=
  ⟨rfl, fun ⟨_, h⟩ => Except.noConfusion h⟩

/-- C8 amended: sanitize is total including null and empty input (both
give the empty string), and hash_template returns a 64-character
lowercase hex digest for every actual string input. -/
theorem c8_amended :
    sanitize none = "" ∧ sanitize (some "") = "" ∧
    ∀ s : String, ∃ d : String, hash_template (some s) = Except.ok d ∧
      d.length = 64 ∧ ∀ c ∈ d.data, c ∈ hexDigits :=
  ⟨rfl, rfl, fun s =>
    ⟨sha256Hex s, rfl, sha256Hex_length s, fun _ hc => flatten_chars_mem hc⟩⟩

lemma takeWhile_bar (pre rest : List Char)
    (h : pre.all (fun c => c ≠ '|') = true) :
    (pre ++ '|' :: rest).takeWhile (fun c => c ≠ '|') = pre := by
  induction pre with
  | nil => simp [List.takeWhile_cons]
  | cons c cs ih =>
    rw [List.all_cons, Bool.and_eq_true] at h
    rw [List.cons_append, List.takeWhile_cons, h.1]
    rw [ih h.2]
    simp

lemma data_split_zero (X Y Z : String) :
    ("pattern:" ++ "0" ++ "|" ++ X ++ "|" ++ Y ++ "|" ++ Z).data
      = "pattern:0".data ++ '|' :: (X.data ++ '|' :: (Y.data ++ '|' :: Z.data)) := by
  simp only [String.data_append, List.append_assoc]
  have hc : "pattern:".data ++ ("0".data ++ ("|".data ++
      (X.data ++ ("|".data ++ (Y.data ++ ("|".data ++ Z.data))))))
      = ("pattern:".data ++ "0".data ++ "|".data) ++
        (X.data ++ ('|' :: (Y.data ++ ('|' :: Z.data)))) := by
    simp [List.append_assoc]
  rw [hc]
  have hlit : "pattern:".data ++ "0".data ++ "|".data
      = "pattern:0".data ++ ['|'] := by decide
  rw [hlit, List.append_assoc]
  rfl

lemma data_split_empty (X Y Z : String) :
    ("pattern:" ++ "" ++ "|" ++ X ++ "|" ++ Y ++ "|" ++ Z).data
      = "pattern:".data ++ '|' :: (X.data ++ '|' :: (Y.data ++ '|' :: Z.data)) := by
  simp only [String.data_append, List.append_assoc]
  have hc : "pattern:".data ++ ("".data ++ ("|".data ++
      (X.data ++ ("|".data ++ (Y.data ++ ("|".data ++ Z.data))))))
      = ("pattern:".data ++ "".data ++ "|".data) ++
        (X.data ++ ('|' :: (Y.data ++ ('|' :: Z.data)))) := by
    simp [List.append_assoc]
  rw [hc]
  have hlit : "pattern:".data ++ "".data ++ "|".data
      = "pattern:".data ++ ['|'] := by decide
  rw [hlit, List.append_assoc]
  rfl

/-- C10: an absent pattern_id key yields a template whose first segment
is pattern:0 (the default 0 stringified), a pattern_id present as the
empty string yields first segment pattern: with nothing after the
colon; consequently two alerts identical in every other field produce
different templates, and (at the concrete minimal alert) different
SHA-256 hashes. -/
theorem c10_pattern_absent_vs_empty :
    (∀ a : AlertQA, a.pattern_id = none →
      (generate_template a).data.takeWhile (fun c => c ≠ '|') = "pattern:0".data) ∧
    (∀ a : AlertQA, a.pattern_id = some (.vstr "") →
      (generate_template a).data.takeWhile (fun c => c ≠ '|') = "pattern:".data) ∧
    (∀ cm fn pd, generate_template ⟨none, cm, fn, pd⟩
        ≠ generate_template ⟨some (.vstr ""), cm, fn, pd⟩) ∧
    hash_template (some (generate_template { pattern_id := none }))
      ≠ hash_template (some (generate_template { pattern_id := some (.vstr "") })) := by
  have hA : ∀ a : AlertQA, a.pattern_id = none →
      ∃ X Y Z, generate_template a = "pattern:" ++ "0" ++ "|" ++ X ++ "|" ++ Y ++ "|" ++ Z := by
    intro a hp
    rw [generate_template, hp]
    exact ⟨_, _, _, rfl⟩
  have hB : ∀ a : AlertQA, a.pattern_id = some (.vstr "") →
      ∃ X Y Z, generate_template a = "pattern:" ++ "" ++ "|" ++ X ++ "|" ++ Y ++ "|" ++ Z := by
    intro a hp
    rw [generate_template, hp]
    exact ⟨_, _, _, rfl⟩
  have first0 : ∀ a : AlertQA, a.pattern_id = none →
      (generate_template a).data.takeWhile (fun c => c ≠ '|') = "pattern:0".data := by
    intro a hp
    obtain ⟨X, Y, Z, hXYZ⟩ := hA a hp
    rw [hXYZ, data_split_zero, takeWhile_bar _ _ (by decide)]
  have firstE : ∀ a : AlertQA, a.pattern_id = some (.vstr "") →
      (generate_template a).data.takeWhile (fun c => c ≠ '|') = "pattern:".data := by
    intro a hp
    obtain ⟨X, Y, Z, hXYZ⟩ := hB a hp
    rw [hXYZ, data_split_empty, takeWhile_bar _ _ (by decide)]
  refine ⟨first0, firstE, ?_, ?_⟩
  · intro cm fn pd heq
    have h1 := first0 ⟨none, cm, fn, pd⟩ rfl
    have h2 := firstE ⟨some (.vstr ""), cm, fn, pd⟩ rfl
    rw [heq] at h1
    rw [h1] at h2
    exact absurd h2 (by decide)
  · intro heq
    have h3 := Except.ok.inj heq
    exact absurd h3 (by decide)

end Sanitizer

end QA


namespace QA
namespace Sanitizer

/-! ### Substring occurrence machinery for the HEX-token theorem -/

/-- The literal token the long-hexadecimal rule would insert. -/
def hexTok : List Char := "<HEX>".data

/-- pat occurs as a contiguous substring of l. -/
def occursIn (pat l : List Char) : Prop := ∃ u v, l = u ++ pat ++ v

/-- l starts with p. -/
def leadsWith (p l : List Char) : Prop := ∃ t, l = p ++ t

/-- l ends with p. -/
def endsWith (p l : List Char) : Prop := ∃ t, l = t ++ p

/-- Bool test for leadsWith. -/
def leadsWithB : List Char → List Char → Bool
  | [], _ => true
  | _ :: _, [] => false
  | p :: ps, c :: cs => p = c && leadsWithB ps cs

/-- Bool test for occursIn. -/
def hasSub (pat : List Char) : List Char → Bool
  | [] => leadsWithB pat []
  | c :: rest => leadsWithB pat (c :: rest) || hasSub pat rest

/-- Bool test for endsWith. -/
def endsWithB (p l : List Char) : Bool := leadsWithB p.reverse l.reverse

lemma leadsWithB_iff {p l : List Char} : leadsWithB p l = true ↔ leadsWith p l := by
  induction p generalizing l with
  | nil => simp [leadsWithB, leadsWith]
  | cons a ps ih =>
    cases l with
    | nil =>
      simp only [leadsWithB, leadsWith]
      constructor
      · intro h
        exact absurd h (by simp)
      · rintro ⟨t, ht⟩
        exact absurd ht (by simp)
    | cons c cs =>
      simp only [leadsWithB, Bool.and_eq_true, decide_eq_true_eq, ih]
      constructor
      · rintro ⟨rfl, t, rfl⟩
        exact ⟨t, rfl⟩
      · rintro ⟨t, ht⟩
        rw [List.cons_append] at ht
        obtain ⟨h1, h2⟩ := List.cons.inj ht
        exact ⟨h1.symm, t, h2⟩

lemma hasSub_iff {pat l : List Char} : hasSub pat l = true ↔ occursIn pat l := by
  induction l with
  | nil =>
    simp only [hasSub, leadsWithB_iff, leadsWith, occursIn]
    constructor
    · rintro ⟨t, ht⟩
      exact ⟨[], t, ht⟩
    · rintro ⟨u, v, huv⟩
      rcases List.append_eq_nil.1 (huv.symm) with ⟨h1, h2⟩
      rcases List.append_eq_nil.1 h1 with ⟨rfl, rfl⟩
      exact ⟨v, by simp [h2]⟩
  | cons c rest ih =>
    simp only [hasSub, Bool.or_eq_true, leadsWithB_iff, leadsWith, ih, occursIn]
    constructor
    · rintro (⟨t, ht⟩ | ⟨u, v, huv⟩)
      · exact ⟨[], t, by simp [ht]⟩
      · exact ⟨c :: u, v, by simp [huv]⟩
    · rintro ⟨u, v, huv⟩
      cases u with
      | nil =>
        exact Or.inl ⟨v, by simpa using huv⟩
      | cons a us =>
        rw [List.cons_append, List.cons_append] at huv
        obtain ⟨_, h2⟩ := List.cons.inj huv
        exact Or.inr ⟨us, v, h2⟩

lemma endsWithB_iff {p l : List Char} : endsWithB p l = true ↔ endsWith p l := by
  rw [endsWithB, leadsWithB_iff]
  constructor
  · rintro ⟨t, ht⟩
    refine ⟨t.reverse, ?_⟩
    have := congrArg List.reverse ht
    simpa using this
  · rintro ⟨t, rfl⟩
    exact ⟨t.reverse, by simp⟩

lemma occursIn_length {pat l : List Char} (h : occursIn pat l) :
    pat.length ≤ l.length := by
  obtain ⟨u, v, rfl⟩ := h
  simp
  omega

/-- Decomposition of an occurrence in an append: it lies in the left
part, in the right part, or straddles the seam. -/
lemma occ_append {pat u v : List Char} (h : occursIn pat (u ++ v)) :
    occursIn pat u ∨ occursIn pat v ∨
    ∃ a b, pat = a ++ b ∧ a ≠ [] ∧ b ≠ [] ∧ endsWith a u ∧ leadsWith b v := by
  obtain ⟨x, y, hxy⟩ := h
  rw [List.append_assoc] at hxy
  rcases List.append_eq_append_iff.1 hxy with ⟨w, hw1, hw2⟩ | ⟨w, hw1, hw2⟩
  · -- x = u ++ w and v = w ++ (pat ++ y)
    right; left
    exact ⟨w, y, by rw [hw2, ← List.append_assoc]⟩
  · -- u = x ++ w and pat ++ y = w ++ v
    rcases List.append_eq_append_iff.1 hw2 with ⟨t, ht1, ht2⟩ | ⟨t, ht1, ht2⟩
    · -- w = pat ++ t and y = t ++ v
      left
      exact ⟨x, t, by rw [hw1, ht1, ← List.append_assoc]⟩
    · -- pat = w ++ t and v = t ++ y
      cases hwnil : w with
      | nil =>
        right; left
        refine ⟨[], y, ?_⟩
        rw [ht2]
        simp only [List.nil_append]
        congr 1
        rw [ht1, hwnil, List.nil_append]
      | cons a as =>
        cases htnil : t with
        | nil =>
          left
          refine ⟨x, [], ?_⟩
          rw [hw1, ht1, htnil, List.append_nil, List.append_nil]
        | cons b bs =>
          right; right
          exact ⟨w, t, ht1, by simp [hwnil], by simp [htnil], ⟨x, hw1⟩, ⟨y, ht2⟩⟩

lemma occursIn_cons {pat : List Char} {c : Char} {l : List Char}
    (h : occursIn pat l) : occursIn pat (c :: l) := by
  obtain ⟨u, v, rfl⟩ := h
  exact ⟨c :: u, v, rfl⟩

lemma occursIn_drop {pat l : List Char} {n : ℕ}
    (h : occursIn pat (l.drop n)) : occursIn pat l := by
  obtain ⟨u, v, huv⟩ := h
  refine ⟨l.take n ++ u, v, ?_⟩
  conv_lhs => rw [← List.take_append_drop n l, huv]
  simp [List.append_assoc]

/-- Safety of a replacement text: long enough, without the HEX token,
and with no end that could complete one across a seam. -/
def ReplSafe (r : List Char) : Prop :=
  4 ≤ r.length ∧ ¬ occursIn hexTok r ∧
  ¬ leadsWith ">".data r ∧ ¬ leadsWith "X>".data r ∧
  ¬ leadsWith "EX>".data r ∧ ¬ leadsWith "HEX>".data r ∧
  ¬ endsWith "<".data r ∧ ¬ endsWith "<H".data r ∧
  ¬ endsWith "<HE".data r ∧ ¬ endsWith "<HEX".data r

/-- Bool version of ReplSafe, for deciding it on concrete tokens. -/
def replSafeB (r : List Char) : Bool :=
  decide (4 ≤ r.length) && !hasSub hexTok r &&
  !leadsWithB ">".data r && !leadsWithB "X>".data r &&
  !leadsWithB "EX>".data r && !leadsWithB "HEX>".data r &&
  !endsWithB "<".data r && !endsWithB "<H".data r &&
  !endsWithB "<HE".data r && !endsWithB "<HEX".data r

lemma replSafeB_sound {r : List Char} (h : replSafeB r = true) : ReplSafe r := by
  rw [replSafeB] at h
  simp only [Bool.and_eq_true, Bool.not_eq_true', decide_eq_true_eq] at h
  obtain ⟨⟨⟨⟨⟨⟨⟨⟨⟨h1, h2⟩, h3⟩, h4⟩, h5⟩, h6⟩, h7⟩, h8⟩, h9⟩, h10⟩ := h
  refine ⟨h1, ?_, ?_, ?_, ?_, ?_, ?_, ?_, ?_, ?_⟩
  · intro hc
    rw [← hasSub_iff] at hc
    rw [h2] at hc
    exact absurd hc (by simp)
  · intro hc
    rw [← leadsWithB_iff] at hc
    rw [h3] at hc
    exact absurd hc (by simp)
  · intro hc
    rw [← leadsWithB_iff] at hc
    rw [h4] at hc
    exact absurd hc (by simp)
  · intro hc
    rw [← leadsWithB_iff] at hc
    rw [h5] at hc
    exact absurd hc (by simp)
  · intro hc
    rw [← leadsWithB_iff] at hc
    rw [h6] at hc
    exact absurd hc (by simp)
  · intro hc
    rw [← endsWithB_iff] at hc
    rw [h7] at hc
    exact absurd hc (by simp)
  · intro hc
    rw [← endsWithB_iff] at hc
    rw [h8] at hc
    exact absurd hc (by simp)
  · intro hc
    rw [← endsWithB_iff] at hc
    rw [h9] at hc
    exact absurd hc (by simp)
  · intro hc
    rw [← endsWithB_iff] at hc
    rw [h10] at hc
    exact absurd hc (by simp)

end Sanitizer
end QA

namespace QA
namespace Sanitizer

/-- The nonempty suffixes of the HEX token that can be completed by
earlier output. -/
def hexTails : List (List Char) :=
  [">".data, "X>".data, "EX>".data, "HEX>".data, "<HEX>".data]

lemma hexTails_ne_nil : ∀ τ ∈ hexTails, τ ≠ [] := by decide

lemma hexTails_tail : ∀ τ ∈ hexTails, τ.tail = [] ∨ τ.tail ∈ hexTails := by decide

lemma leadsWith_cons {a : Char} {τ' : List Char} {c : Char} {l : List Char} :
    leadsWith (a :: τ') (c :: l) ↔ a = c ∧ leadsWith τ' l := by
  constructor
  · rintro ⟨t, ht⟩
    rw [List.cons_append] at ht
    obtain ⟨h1, h2⟩ := List.cons.inj ht
    exact ⟨h1.symm, t, h2⟩
  · rintro ⟨rfl, t, rfl⟩
    exact ⟨t, rfl⟩

lemma endsWith_singleton {a : List Char} {c : Char} (h : endsWith a [c])
    (ha : a ≠ []) : a = [c] := by
  obtain ⟨t, ht⟩ := h
  cases t with
  | nil => simpa using ht.symm
  | cons b bs =>
    rw [List.cons_append] at ht
    obtain ⟨_, h2⟩ := List.cons.inj ht
    rcases List.append_eq_nil.1 h2.symm with ⟨_, h4⟩
    exact absurd h4 ha

lemma leadsWith_append_cases {τ x y : List Char} (h : leadsWith τ (x ++ y)) :
    leadsWith τ x ∨ ∃ τ2, τ = x ++ τ2 ∧ leadsWith τ2 y := by
  obtain ⟨t, ht⟩ := h
  rcases List.append_eq_append_iff.1 ht with ⟨w, hw1, hw2⟩ | ⟨w, hw1, hw2⟩
  · exact Or.inr ⟨w, hw1, ⟨t, hw2⟩⟩
  · exact Or.inl ⟨w, hw1⟩

lemma occursIn_of_leadsWith {l : List Char} (h : leadsWith hexTok l) :
    occursIn hexTok l := by
  obtain ⟨t, rfl⟩ := h
  exact ⟨[], t, rfl⟩

lemma occursIn_of_endsWith {l : List Char} (h : endsWith hexTok l) :
    occursIn hexTok l := by
  obtain ⟨t, rfl⟩ := h
  exact ⟨t, [], by simp⟩

/-- The nontrivial two-sided splits of the HEX token. -/
lemma hexTok_splits {a b : List Char} (hab : hexTok = a ++ b)
    (ha : a ≠ []) (hb : b ≠ []) :
    (a = "<".data ∧ b = "HEX>".data) ∨ (a = "<H".data ∧ b = "EX>".data) ∨
    (a = "<HE".data ∧ b = "X>".data) ∨ (a = "<HEX".data ∧ b = ">".data) := by
  have hlen : a.length + b.length = 5 := by
    have := congrArg List.length hab
    simpa using this.symm
  have ha' : a = hexTok.take a.length := by
    rw [hab, List.take_left]
  have hb' : b = hexTok.drop a.length := by
    rw [hab, List.drop_left]
  have h1 : 1 ≤ a.length := by
    cases haa : a with
    | nil => exact absurd haa ha
    | cons x xs => simp [haa]
  have h4 : a.length ≤ 4 := by
    have hbp : 1 ≤ b.length := by
      cases hbb : b with
      | nil => exact absurd hbb hb
      | cons x xs => simp [hbb]
    omega
  interval_cases h : a.length
  · exact Or.inl ⟨by rw [ha']; decide, by rw [hb']; decide⟩
  · exact Or.inr (Or.inl ⟨by rw [ha']; decide, by rw [hb']; decide⟩)
  · exact Or.inr (Or.inr (Or.inl ⟨by rw [ha']; decide, by rw [hb']; decide⟩))
  · exact Or.inr (Or.inr (Or.inr ⟨by rw [ha']; decide, by rw [hb']; decide⟩))

/-- An occurrence-free replacement block: no occurrence enters,
crosses, or starts inside a safe replacement. -/
lemma repl_part {repl rest' : List Char} (hr : ReplSafe repl)
    (hocc' : ¬ occursIn hexTok rest') :
    ¬ occursIn hexTok (repl ++ rest') ∧
    (∀ τ ∈ hexTails, ¬ leadsWith τ (repl ++ rest')) := by
  obtain ⟨hlen4, hnoocc, hl1, hl2, hl3, hl4, he1, he2, he3, he4⟩ := hr
  constructor
  · intro hocc
    rcases occ_append hocc with h | h | ⟨a, b, hab, ha, hb, hea, hlb⟩
    · exact hnoocc h
    · exact hocc' h
    · rcases hexTok_splits hab ha hb with ⟨rfl, _⟩ | ⟨rfl, _⟩ | ⟨rfl, _⟩ | ⟨rfl, _⟩
      · exact he1 hea
      · exact he2 hea
      · exact he3 hea
      · exact he4 hea
  · intro τ hτ hlw
    simp only [hexTails, List.mem_cons, List.not_mem_nil, or_false] at hτ
    rcases leadsWith_append_cases hlw with h | ⟨τ2, hτ2, _⟩
    · -- τ starts inside repl
      rcases hτ with rfl | rfl | rfl | rfl | rfl
      · exact hl1 h
      · exact hl2 h
      · exact hl3 h
      · exact hl4 h
      · exact hnoocc (occursIn_of_leadsWith h)
    · -- repl is a proper prefix of τ, which is at most five long
      have hτlen : τ.length ≤ 5 := by
        rcases hτ with rfl | rfl | rfl | rfl | rfl
        · decide
        · decide
        · decide
        · decide
        · decide
      have hrep : repl.length + τ2.length = τ.length := by
        have := congrArg List.length hτ2
        simpa using this.symm
      have hτ2len : τ2.length ≤ 1 := by omega
      cases hτ2n : τ2 with
      | nil =>
        rw [hτ2n, List.append_nil] at hτ2
        subst hτ2
        rcases hτ with rfl | rfl | rfl | rfl | rfl
        · simp at hlen4
        · simp at hlen4
        · simp at hlen4
        · exact hl4 ⟨[], by simp⟩
        · exact hnoocc ⟨[], [], by simp [hexTok]⟩
      | cons e es =>
        have hes : es = [] := by
          rw [hτ2n] at hτ2len
          simpa using hτ2len
        rw [hτ2n, hes] at hτ2
        have hτ5 : τ.length = repl.length + 1 := by
          have := congrArg List.length hτ2
          simpa using this
        have hτeq : τ = "<HEX>".data ∧ repl.length = 4 := by
          rcases hτ with rfl | rfl | rfl | rfl | rfl
          · have h7 : repl.length + 1 = 1 := by rw [← hτ5]; decide
            omega
          · have h7 : repl.length + 1 = 2 := by rw [← hτ5]; decide
            omega
          · have h7 : repl.length + 1 = 3 := by rw [← hτ5]; decide
            omega
          · have h7 : repl.length + 1 = 4 := by rw [← hτ5]; decide
            omega
          · have h7 : repl.length + 1 = 5 := by rw [← hτ5]; decide
            exact ⟨rfl, by omega⟩
        obtain ⟨rfl, hr4⟩ := hτeq
        have hreq : repl = "<HEX".data := by
          have h5 : repl = ("<HEX>".data).take repl.length := by
            rw [hτ2, List.take_left]
          rw [hr4] at h5
          rw [h5]
          decide
        exact he4 ⟨[], by rw [hreq]; rfl⟩

/-- A copied character preserves absence of the token and transfers
pending token-suffix prefixes, given the facts for the tail. -/
lemma cons_case {c : Char} {rest out' : List Char}
    (hno : ¬ occursIn hexTok (c :: rest))
    (ih : ¬ occursIn hexTok out' ∧
      (∀ τ ∈ hexTails, leadsWith τ out' → leadsWith τ rest)) :
    ¬ occursIn hexTok (c :: out') ∧
    (∀ τ ∈ hexTails, leadsWith τ (c :: out') → leadsWith τ (c :: rest)) := by
  have hnorest : ¬ occursIn hexTok rest := fun h => hno (occursIn_cons h)
  constructor
  · intro hocc
    have hocc2 : occursIn hexTok ([c] ++ out') := by simpa using hocc
    rcases occ_append hocc2 with h | h | ⟨a, b, hab, ha, hb, hea, hlb⟩
    · have := occursIn_length h
      simp [hexTok] at this
    · exact ih.1 h
    · have haeq := endsWith_singleton hea ha
      subst haeq
      rcases hexTok_splits hab ha hb with ⟨h1, rfl⟩ | ⟨h1, _⟩ | ⟨h1, _⟩ | ⟨h1, _⟩
      · have hc : c = '<' := by
          have h2 := List.cons.inj h1
          exact h2.1
        have hlr := ih.2 _ (by simp [hexTails]) hlb
        obtain ⟨t, rfl⟩ := hlr
        exact hno ⟨[], t, by rw [hc]; rfl⟩
      · exact absurd h1 (by simp)
      · exact absurd h1 (by simp)
      · exact absurd h1 (by simp)
  · intro τ hτ hlw
    have hτne := hexTails_ne_nil τ hτ
    cases hτn : τ with
    | nil => exact absurd hτn hτne
    | cons a τ' =>
      subst hτn
      obtain ⟨rfl, hlw'⟩ := leadsWith_cons.1 hlw
      cases hτ'n : τ' with
      | nil => exact ⟨rest, by simp⟩
      | cons b τ'' =>
        subst hτ'n
        have hmem : b :: τ'' ∈ hexTails := by
          have h2 := hexTails_tail _ hτ
          simp only [List.tail_cons] at h2
          rcases h2 with h | h
          · exact absurd h (by simp)
          · exact h
        exact leadsWith_cons.2 ⟨rfl, ih.2 _ hmem hlw'⟩

/-- The scanner preserves absence of the HEX token when every
replacement it can emit is safe. -/
lemma scan_preserves (tm : Matcher)
    (hsafe : ∀ prev l n r, tm prev l = some (n, r) → ReplSafe r)
    (prev : Option Char) (l : List Char) :
    ¬ occursIn hexTok l →
      ¬ occursIn hexTok (subScan tm prev l) ∧
      (∀ τ ∈ hexTails, leadsWith τ (subScan tm prev l) → leadsWith τ l) := by
  refine subScan.induct tm
    (fun prev l => ¬ occursIn hexTok l →
      ¬ occursIn hexTok (subScan tm prev l) ∧
      (∀ τ ∈ hexTails, leadsWith τ (subScan tm prev l) → leadsWith τ l))
    ?_ ?_ ?_ ?_ prev l
  · intro _ hno
    rw [subScan]
    exact ⟨fun h => by have := occursIn_length h; simp [hexTok] at this,
      fun τ hτ hlw => hlw⟩
  · intro prev c rest hnone ih hno
    have hout : subScan tm prev (c :: rest) = c :: subScan tm (some c) rest := by
      rw [subScan, hnone]
    rw [hout]
    have hnorest : ¬ occursIn hexTok rest := fun h => hno (occursIn_cons h)
    exact cons_case hno (ih hnorest)
  · intro prev c rest repl hsome ih hno
    have hout : subScan tm prev (c :: rest)
        = repl ++ c :: subScan tm (some c) rest := by
      rw [subScan, hsome]
      simp
    rw [hout]
    have hnorest : ¬ occursIn hexTok rest := fun h => hno (occursIn_cons h)
    have hinner := cons_case hno (ih hnorest)
    have hrp := repl_part (hsafe _ _ _ _ hsome) hinner.1
    exact ⟨hrp.1, fun τ hτ hlw => absurd hlw (hrp.2 τ hτ)⟩
  · intro prev c rest n repl hsome hn ih hno
    have hout : subScan tm prev (c :: rest)
        = repl ++ subScan tm (some ((c :: rest).getD (n - 1) c))
            (List.drop n (c :: rest)) := by
      rw [subScan, hsome]
      simp [hn]
    rw [hout]
    have hnodrop : ¬ occursIn hexTok (List.drop n (c :: rest)) :=
      fun h => hno (occursIn_drop h)
    have hih := ih hnodrop
    have hrp := repl_part (hsafe _ _ _ _ hsome) hih.1
    exact ⟨hrp.1, fun τ hτ hlw => absurd hlw (hrp.2 τ hτ)⟩

end Sanitizer
end QA

namespace QA
namespace Sanitizer

lemma uint32_le_toNat {a b : UInt32} : a ≤ b ↔ a.toNat ≤ b.toNat :=
  ⟨fun h => h, fun h => h⟩

/-- Hexadecimal characters are word characters. -/
lemma hex_word {c : Char} (h : isHexChar c = true) : isWordChar c = true := by
  simp only [isHexChar, isWordChar, Char.isAlphanum, Char.isAlpha, Char.isLower,
    Char.isUpper, Char.isDigit, Char.toNat, uint32_le_toNat,
    Bool.or_eq_true, Bool.and_eq_true, decide_eq_true_eq,
    ge_iff_le] at h ⊢
  have h97 : (97 : UInt32).toNat = 97 := rfl
  have h122 : (122 : UInt32).toNat = 122 := rfl
  have h65 : (65 : UInt32).toNat = 65 := rfl
  have h90 : (90 : UInt32).toNat = 90 := rfl
  have h48 : (48 : UInt32).toNat = 48 := rfl
  have h57 : (57 : UInt32).toNat = 57 := rfl
  simp only [h97, h122, h65, h90, h48, h57] at h ⊢
  left
  omega

/-- Hexadecimal characters belong to the base64 alphabet. -/
lemma hex_b64 {c : Char} (h : isHexChar c = true) : isBase64Char c = true := by
  simp only [isHexChar, isBase64Char, Char.isAlphanum, Char.isAlpha, Char.isLower,
    Char.isUpper, Char.isDigit, Char.toNat, uint32_le_toNat,
    Bool.or_eq_true, Bool.and_eq_true, decide_eq_true_eq,
    ge_iff_le] at h ⊢
  have h97 : (97 : UInt32).toNat = 97 := rfl
  have h122 : (122 : UInt32).toNat = 122 := rfl
  have h65 : (65 : UInt32).toNat = 65 := rfl
  have h90 : (90 : UInt32).toNat = 90 := rfl
  have h48 : (48 : UInt32).toNat = 48 := rfl
  have h57 : (57 : UInt32).toNat = 57 := rfl
  simp only [h97, h122, h65, h90, h48, h57] at h ⊢
  left; left
  omega

/-- An optional character that does not block a left word boundary. -/
def nonWordOpt : Option Char → Bool
  | none => true
  | some c => !isWordChar c

lemma boundaryAt_of_nonWord {p : Option Char} {c : Char}
    (hp : nonWordOpt p = true) (hc : isWordChar c = true) :
    boundaryAt p (some c) = true := by
  cases p with
  | none => simpa [boundaryAt] using hc
  | some a =>
    simp only [nonWordOpt, Bool.not_eq_true'] at hp
    simp [boundaryAt, hp, hc]

lemma runLength_le_length (p : Char → Bool) (l : List Char) :
    runLength p l ≤ l.length := by
  induction l with
  | nil => simp [runLength]
  | cons c rest ih =>
    simp only [runLength, List.length_cons]
    split
    · omega
    · omega

lemma runLength_get (p : Char → Bool) (l : List Char) :
    ∀ k, k < runLength p l → ∃ c, l[k]? = some c ∧ p c = true := by
  induction l with
  | nil => simp [runLength]
  | cons c rest ih =>
    intro k hk
    simp only [runLength] at hk
    by_cases hc : p c = true
    · rw [if_pos hc] at hk
      cases k with
      | zero => exact ⟨c, by simp, hc⟩
      | succ k' =>
        have := ih k' (by omega)
        simpa using this
    · rw [if_neg hc] at hk
      omega

lemma runLength_stop (p : Char → Bool) (l : List Char) {c : Char}
    (h : l[runLength p l]? = some c) : p c = false := by
  induction l with
  | nil => simp at h
  | cons a rest ih =>
    by_cases ha : p a = true
    · rw [show runLength p (a :: rest) = runLength p rest + 1 by
        simp [runLength, ha]] at h
      simp only [List.getElem?_cons_succ] at h
      exact ih h
    · rw [show runLength p (a :: rest) = 0 by simp [runLength, ha]] at h
      simp only [List.getElem?_cons_zero, Option.some.injEq] at h
      subst h
      simpa using ha

lemma runLength_ge (p : Char → Bool) (l : List Char) (L : ℕ)
    (h : ∀ k < L, ∃ c, l[k]? = some c ∧ p c = true) : L ≤ runLength p l := by
  induction l generalizing L with
  | nil =>
    cases L with
    | zero => omega
    | succ L' =>
      obtain ⟨c, hc, _⟩ := h 0 (by omega)
      simp at hc
  | cons a rest ih =>
    cases L with
    | zero => omega
    | succ L' =>
      obtain ⟨c, hc, hpc⟩ := h 0 (by omega)
      simp only [List.getElem?_cons_zero, Option.some.injEq] at hc
      subst hc
      simp only [runLength, if_pos hpc]
      have := ih L' (fun k hk => by
        have := h (k + 1) (by omega)
        simpa using this)
      omega

lemma runLength_eq (p : Char → Bool) (l : List Char) (L : ℕ)
    (h : ∀ k < L, ∃ c, l[k]? = some c ∧ p c = true)
    (hend : l[L]? = none ∨ ∃ c, l[L]? = some c ∧ p c = false) :
    runLength p l = L := by
  have h1 := runLength_ge p l L h
  rcases Nat.lt_or_ge L (runLength p l) with h2 | h2
  · exfalso
    obtain ⟨c, hc, hpc⟩ := runLength_get p l L h2
    rcases hend with he | ⟨d, hd, hpd⟩
    · rw [he] at hc
      exact Option.noConfusion hc
    · rw [hd] at hc
      obtain rfl := Option.some.inj hc
      rw [hpc] at hpd
      exact Bool.noConfusion hpd
  · omega

lemma runLength_append_all {p : Char → Bool} {x : List Char} (y : List Char)
    (h : ∀ c ∈ x, p c = true) :
    runLength p (x ++ y) = x.length + runLength p y := by
  induction x with
  | nil => simp
  | cons a rest ih =>
    have ha : p a = true := h a (by simp)
    simp only [List.cons_append, runLength, if_pos ha, List.length_cons,
      List.append_eq]
    rw [ih (fun c hc => h c (by simp [hc]))]
    omega

/-- Shifting a word-boundary test past a dropped prefix. -/
lemma boundaryAfter_drop (l : List Char) (m x : ℕ) (hx : 1 ≤ x) :
    boundaryAfter (l.drop m) x = boundaryAfter l (m + x) := by
  simp only [boundaryAfter, List.getElem?_drop]
  have h1 : m + (x - 1) = m + x - 1 := by omega
  rw [h1]

lemma eqTryAt_some {l : List Char} {k jmax j : ℕ}
    (h : eqTryAt l k jmax = some j) :
    j ≤ jmax ∧ boundaryAfter l (k + j) = true := by
  induction jmax with
  | zero =>
    simp only [eqTryAt] at h
    split at h
    · obtain rfl := Option.some.inj h
      constructor
      · omega
      · simpa using ‹_›
    · exact Option.noConfusion h
  | succ j' ih =>
    simp only [eqTryAt] at h
    split at h
    · obtain rfl := Option.some.inj h
      refine ⟨le_refl _, ?_⟩
      have h2 : k + (j' + 1) = k + j' + 1 := by omega
      rw [h2]
      assumption
    · have := ih h
      exact ⟨by omega, this.2⟩

lemma eqTryAt_none {l : List Char} {k jmax : ℕ}
    (h : eqTryAt l k jmax = none) :
    ∀ j ≤ jmax, boundaryAfter l (k + j) = false := by
  induction jmax with
  | zero =>
    intro j hj
    interval_cases j
    simp only [eqTryAt] at h
    split at h
    · exact Option.noConfusion h
    · rename_i hbs
      simpa [Nat.add_zero] using Bool.eq_false_iff.2 hbs
  | succ j' ih =>
    intro j hj
    simp only [eqTryAt] at h
    split at h
    · exact Option.noConfusion h
    · rcases Nat.lt_or_ge j (j' + 1) with h2 | h2
      · exact ih h j (by omega)
      · have hj2 : j = j' + 1 := by omega
        subst hj2
        have h3 : k + (j' + 1) = k + j' + 1 := by omega
        rw [h3]
        rename_i hbs
        simpa using Bool.eq_false_iff.2 hbs

lemma bcsSearch_some {l : List Char} {maxEq minLen K e : ℕ}
    (h : bcsSearch l maxEq minLen K = some e) :
    ∃ k j, e = k + j ∧ minLen ≤ k ∧ k ≤ K ∧
      eqTryAt l k (min maxEq (runLength (fun c => c = '=') (l.drop k))) = some j := by
  induction K with
  | zero => simp [bcsSearch] at h
  | succ K' ih =>
    simp only [bcsSearch] at h
    split at h
    · exact Option.noConfusion h
    · rename_i hmin
      split at h
      · rename_i j hj
        obtain rfl := Option.some.inj h
        exact ⟨K' + 1, j, rfl, by omega, le_refl _, hj⟩
      · obtain ⟨k, j, h1, h2, h3, h4⟩ := ih h
        exact ⟨k, j, h1, h2, by omega, h4⟩

lemma bcsSearch_none {l : List Char} {maxEq minLen K : ℕ}
    (hml : 1 ≤ minLen) (h : bcsSearch l maxEq minLen K = none) :
    ∀ k, minLen ≤ k → k ≤ K →
      eqTryAt l k (min maxEq (runLength (fun c => c = '=') (l.drop k))) = none := by
  induction K with
  | zero => intro k h1 h2; omega
  | succ K' ih =>
    intro k h1 h2
    simp only [bcsSearch] at h
    split at h
    · omega
    · rename_i hmin
      split at h
      · exact Option.noConfusion h
      · rename_i hnone
        rcases Nat.lt_or_ge k (K' + 1) with h3 | h3
        · exact ih h k h1 (by omega)
        · have hk : k = K' + 1 := by omega
          subst hk
          exact hnone

end Sanitizer
end QA

namespace QA
namespace Sanitizer

/-- Unpacking a successful class-run match. -/
lemma tmBCS_some {cls : Char → Bool} {minLen maxEq : ℕ} {repl : List Char}
    {prev : Option Char} {l : List Char} {n : ℕ} {r : List Char}
    (h : tmBCS cls minLen maxEq repl prev l = some (n, r)) :
    r = repl ∧ boundaryAt prev l.head? = true ∧
    minLen ≤ runLength cls l ∧
    bcsSearch l maxEq minLen (runLength cls l) = some n := by
  simp only [tmBCS] at h
  split at h
  · exact Option.noConfusion h
  · rename_i hbnd
    split at h
    · exact Option.noConfusion h
    · rename_i hlen
      simp only [Option.map_eq_some'] at h
      obtain ⟨e, he, heq⟩ := h
      obtain ⟨rfl, rfl⟩ := Prod.mk.injEq .. ▸ heq
      refine ⟨rfl, ?_, by omega, he⟩
      simpa using hbnd

/-- Packing a class-run match. -/
lemma tmBCS_mk {cls : Char → Bool} {minLen maxEq : ℕ} {repl : List Char}
    {prev : Option Char} {l : List Char} {e : ℕ}
    (hb : boundaryAt prev l.head? = true)
    (hlen : minLen ≤ runLength cls l)
    (hs : bcsSearch l maxEq minLen (runLength cls l) = some e) :
    tmBCS cls minLen maxEq repl prev l = some (e, repl) := by
  simp only [tmBCS, hb, Bool.not_true, Bool.false_eq_true, if_false]
  rw [if_neg (by omega), hs]
  rfl

/-- A successful class-run match consumes at least one and at most all
characters and ends on a word boundary. -/
lemma tmBCS_props {cls : Char → Bool} {minLen maxEq : ℕ} {repl : List Char}
    {prev : Option Char} {l : List Char} {n : ℕ} {r : List Char}
    (hml : 1 ≤ minLen)
    (h : tmBCS cls minLen maxEq repl prev l = some (n, r)) :
    1 ≤ n ∧ n ≤ l.length ∧ boundaryAfter l n = true := by
  obtain ⟨rfl, hb, hlen, hs⟩ := tmBCS_some h
  obtain ⟨k, j, rfl, h1, h2, h3⟩ := bcsSearch_some hs
  obtain ⟨hj, hbnd⟩ := eqTryAt_some h3
  have hk : k ≤ l.length := le_trans h2 (runLength_le_length cls l)
  have hj2 : j ≤ (l.drop k).length := le_trans hj (le_trans (min_le_right _ _)
    (runLength_le_length _ _))
  rw [List.length_drop] at hj2
  exact ⟨by omega, by omega, hbnd⟩

/-- The class-run matcher never fires on the empty input. -/
lemma tmBCS_nil {cls : Char → Bool} {minLen maxEq : ℕ} {repl : List Char}
    (prev : Option Char) (hml : 1 ≤ minLen) :
    tmBCS cls minLen maxEq repl prev [] = none := by
  simp only [tmBCS]
  split
  · rfl
  · rw [if_pos]
    simp [runLength]
    omega

/-- Direct match: a hex run of at least minLen characters ending at a
non-word character or the end of input makes the class-run matcher
fire. -/
lemma tmBCS_of_hexRun {cls : Char → Bool} {minLen maxEq : ℕ} {repl : List Char}
    {prev : Option Char} {l : List Char} {L : ℕ}
    (hml : 1 ≤ minLen)
    (hsub : ∀ c, isHexChar c = true → cls c = true)
    (hhex : ∀ k < L, ∃ c, l[k]? = some c ∧ isHexChar c = true)
    (hL : minLen ≤ L) (hL1 : 1 ≤ L)
    (hb : boundaryAt prev l.head? = true)
    (hend : l[L]? = none ∨ ∃ c, l[L]? = some c ∧ isWordChar c = false) :
    ∃ e, tmBCS cls minLen maxEq repl prev l = some (e, repl) := by
  have hK : L ≤ runLength cls l :=
    runLength_ge cls l L (fun k hk => by
      obtain ⟨c, hc, hhc⟩ := hhex k hk
      exact ⟨c, hc, hsub c hhc⟩)
  have hbL : boundaryAfter l L = true := by
    obtain ⟨cl, hcl, hhcl⟩ := hhex (L - 1) (by omega)
    have hwl : isWordChar cl = true := hex_word hhcl
    unfold boundaryAfter
    rw [hcl]
    rcases hend with he | ⟨d, hd, hwd⟩
    · rw [he]
      simpa [boundaryAt] using hwl
    · rw [hd]
      simp [boundaryAt, hwl, hwd]
  have htry : eqTryAt l L
      (min maxEq (runLength (fun c => c = '=') (l.drop L))) ≠ none := by
    intro hcon
    have := eqTryAt_none hcon 0 (by omega)
    rw [Nat.add_zero] at this
    rw [hbL] at this
    exact Bool.noConfusion this
  have hbs : bcsSearch l maxEq minLen (runLength cls l) ≠ none := by
    intro hcon
    exact htry (bcsSearch_none hml hcon L hL hK)
  obtain ⟨e, he⟩ := Option.ne_none_iff_exists.1 hbs
  exact ⟨e, tmBCS_mk hb (by omega) he.symm⟩

/-- Lifting a match after a class-character prefix to a match at the
start of the prefix. -/
lemma tmBCS_lift {cls : Char → Bool} {minLen maxEq : ℕ} {repl : List Char}
    {prev p2 : Option Char} {l : List Char} {m n : ℕ} {r : List Char}
    (hml : 1 ≤ minLen)
    (hmatch : tmBCS cls minLen maxEq repl p2 (l.drop m) = some (n, r))
    (hpre : ∀ k < m, ∃ c, l[k]? = some c ∧ cls c = true)
    (hb : boundaryAt prev l.head? = true) :
    ∃ e, tmBCS cls minLen maxEq repl prev l = some (e, repl) := by
  obtain ⟨rfl, _, hlen', hs'⟩ := tmBCS_some hmatch
  obtain ⟨k, j, rfl, h1, h2, h3⟩ := bcsSearch_some hs'
  have hm : m ≤ l.length := by
    by_contra hcon
    have hd : l.drop m = [] := List.drop_eq_nil_of_le (by omega)
    rw [hd] at hlen'
    simp [runLength] at hlen'
    omega
  have htake : ∀ c ∈ l.take m, cls c = true := by
    intro c hc
    obtain ⟨i, hi, hg⟩ := List.mem_iff_getElem.1 hc
    have hi2 : i < m := by
      have := List.length_take m l
      omega
    obtain ⟨d, hd, hcd⟩ := hpre i hi2
    have : (l.take m)[i]? = some c := by
      rw [List.getElem?_eq_getElem hi, hg]
    rw [List.getElem?_take, if_pos hi2] at this
    rw [hd] at this
    obtain rfl := Option.some.inj this
    exact hcd
  have hK : runLength cls l = m + runLength cls (l.drop m) := by
    conv_lhs => rw [← List.take_append_drop m l]
    rw [runLength_append_all _ htake, List.length_take]
    omega
  have hjm : min maxEq (runLength (fun c => c = '=') ((l.drop m).drop k))
      = min maxEq (runLength (fun c => c = '=') (l.drop (m + k))) := by
    rw [List.drop_drop]
  obtain ⟨hj, hbnd⟩ := eqTryAt_some h3
  have hbnd2 : boundaryAfter l (m + (k + j)) = true := by
    rw [← boundaryAfter_drop l m (k + j) (by omega)]
    exact hbnd
  have htry : eqTryAt l (m + k)
      (min maxEq (runLength (fun c => c = '=') (l.drop (m + k)))) ≠ none := by
    intro hcon
    have := eqTryAt_none hcon j (by rw [← hjm] at *; omega)
    rw [show m + k + j = m + (k + j) by omega, hbnd2] at this
    exact Bool.noConfusion this
  have hbs : bcsSearch l maxEq minLen (runLength cls l) ≠ none := by
    intro hcon
    exact htry (bcsSearch_none hml hcon (m + k) (by omega) (by omega))
  obtain ⟨e, he⟩ := Option.ne_none_iff_exists.1 hbs
  exact ⟨e, tmBCS_mk hb (by omega) he.symm⟩

end Sanitizer
end QA

namespace QA
namespace Sanitizer

/-- The character before position m of the scan, as the scanner tracks
it: the external previous character at the start, the original
character at m-1 inside. -/
def prevAt (prev : Option Char) (l : List Char) (m : ℕ) : Option Char :=
  if m = 0 then prev else l[m-1]?

lemma prevAt_cons {c : Char} {rest : List Char} {m : ℕ} (prev : Option Char) :
    prevAt prev (c :: rest) (m + 1) = prevAt (some c) rest m := by
  cases m with
  | zero => simp [prevAt]
  | succ k => simp [prevAt]

/-- A scan in which the matcher fires nowhere copies the input. -/
lemma subScan_eq_self (tm : Matcher) :
    ∀ (prev : Option Char) (l : List Char),
      (∀ m, tm (prevAt prev l m) (l.drop m) = none) → subScan tm prev l = l := by
  intro prev l
  induction l generalizing prev with
  | nil => intro _; rw [subScan]
  | cons c rest ih =>
    intro h
    have h0 : tm prev (c :: rest) = none := by
      have := h 0
      simpa [prevAt] using this
    have hout : subScan tm prev (c :: rest) = c :: subScan tm (some c) rest := by
      rw [subScan, h0]
    rw [hout]
    congr 1
    refine ih (some c) (fun m => ?_)
    have := h (m + 1)
    rw [prevAt_cons] at this
    simpa using this

/-- If every replacement starts with < and the input head is not a
hexadecimal character, the scan output starts with no hexadecimal
run. -/
lemma subScan_runZero (tm : Matcher)
    (hrep : ∀ p l n r, tm p l = some (n, r) → ∃ t, r = '<' :: t)
    (prev : Option Char) (l : List Char)
    (hhead : ∀ c, l.head? = some c → isHexChar c = false) :
    runLength isHexChar (subScan tm prev l) = 0 := by
  cases l with
  | nil => rw [subScan]; rfl
  | cons c rest =>
    have hc : isHexChar c = false := hhead c rfl
    cases htm : tm prev (c :: rest) with
    | none =>
      have hout : subScan tm prev (c :: rest) = c :: subScan tm (some c) rest := by
        rw [subScan, htm]
      rw [hout]
      simp [runLength, hc]
    | some p =>
      obtain ⟨n, r⟩ := p
      obtain ⟨t, rfl⟩ := hrep _ _ _ _ htm
      have hlt : isHexChar '<' = false := by decide
      by_cases hn : n = 0
      · subst hn
        have hout : subScan tm prev (c :: rest)
            = ('<' :: t) ++ c :: subScan tm (some c) rest := by
          rw [subScan, htm]
          simp
        rw [hout]
        simp [runLength, hlt]
      · have hout : subScan tm prev (c :: rest)
            = ('<' :: t) ++
              subScan tm (some ((c :: rest).getD (n - 1) c)) ((c :: rest).drop n) := by
          rw [subScan, htm]
          simp [hn]
        rw [hout]
        simp [runLength, hlt]

/-- First-match decomposition of a scan: either the matcher fires
nowhere and the scan copies the input, or there is a first position m
where it fires, everything before m is copied, and the scan resumes
after the consumed text. -/
lemma subScan_first (tm : Matcher)
    (hpos : ∀ p l n r, tm p l = some (n, r) → 1 ≤ n)
    (hlen : ∀ p l n r, tm p l = some (n, r) → n ≤ l.length)
    (hnil : ∀ p, tm p [] = none) :
    ∀ (prev : Option Char) (l : List Char),
      (subScan tm prev l = l ∧ ∀ m, tm (prevAt prev l m) (l.drop m) = none)
      ∨ ∃ m n repl d, tm (prevAt prev l m) (l.drop m) = some (n, repl) ∧
          (∀ k < m, tm (prevAt prev l k) (l.drop k) = none) ∧
          l[m + n - 1]? = some d ∧
          subScan tm prev l = l.take m ++ repl ++ subScan tm (some d) (l.drop (m + n)) := by
  intro prev l
  induction l generalizing prev with
  | nil =>
    left
    refine ⟨by rw [subScan], fun m => ?_⟩
    rw [List.drop_nil]
    exact hnil _
  | cons c rest ih =>
    cases htm : tm prev (c :: rest) with
    | some p =>
      obtain ⟨n, repl⟩ := p
      right
      have hn1 : 1 ≤ n := hpos _ _ _ _ htm
      have hn2 : n ≤ (c :: rest).length := hlen _ _ _ _ htm
      have hd : ∃ d, (c :: rest)[n - 1]? = some d := by
        have h9 : n - 1 < (c :: rest).length := by omega
        exact ⟨(c :: rest).get ⟨n - 1, h9⟩, List.getElem?_eq_getElem h9⟩
      obtain ⟨d, hd⟩ := hd
      refine ⟨0, n, repl, d, ?_, by omega, ?_, ?_⟩
      · simpa [prevAt] using htm
      · simpa using hd
      · have hgd : (c :: rest).getD (n - 1) c = d := by
          rw [List.getD_eq_getElem?_getD]
          rw [show ((c :: rest)[n - 1]?) = some d from by simpa using hd]
          rfl
        rw [subScan, htm]
        simp [show ¬ n = 0 by omega, hgd, hd]
    | none =>
      rcases ih (some c) with ⟨hsl, hall⟩ | ⟨m, n, repl, d, hmt, hmin, hdd, heq⟩
      · left
        constructor
        · rw [subScan, htm, hsl]
        · intro m
          cases m with
          | zero => simpa [prevAt] using htm
          | succ k =>
            rw [prevAt_cons]
            simpa using hall k
      · right
        have hn1 : 1 ≤ n := hpos _ _ _ _ hmt
        refine ⟨m + 1, n, repl, d, ?_, ?_, ?_, ?_⟩
        · rw [prevAt_cons]
          simpa using hmt
        · intro k hk
          cases k with
          | zero => simpa [prevAt] using htm
          | succ k' =>
            rw [prevAt_cons]
            have := hmin k' (by omega)
            simpa using this
        · have harith : m + 1 + n - 1 = (m + n - 1) + 1 := by omega
          rw [harith, List.getElem?_cons_succ]
          exact hdd
        · rw [subScan, htm]
          rw [heq]
          have harith : m + 1 + n = (m + n) + 1 := by omega
          rw [harith, List.take_cons, List.drop_succ_cons]
          · simp
          · omega

end Sanitizer
end QA

namespace QA
namespace Sanitizer

lemma getElem?_append_lt {x : List Char} (y : List Char) {k : ℕ}
    (h : k < x.length) : (x ++ y)[k]? = x[k]? := by
  rw [List.getElem?_append, if_pos h]

lemma getElem?_append_add (x y : List Char) (k : ℕ) :
    (x ++ y)[x.length + k]? = y[k]? := by
  rw [List.getElem?_append_right (by omega)]
  congr 1
  omega

lemma drop_append_add (x y : List Char) (k : ℕ) :
    (x ++ y).drop (x.length + k) = y.drop k := List.drop_append k

/-- The rule 9 matcher: base64 blobs of twenty or more characters. -/
def tm64 : Matcher := tmBCS isBase64Char 20 2 "<DATA>".data

lemma tm64_eq : tm64 = tmBCS isBase64Char 20 2 "<DATA>".data := rfl

lemma tm64_posA : ∀ (p : Option Char) (l : List Char) (n : ℕ) (r : List Char),
    tm64 p l = some (n, r) → 1 ≤ n := by
  intro p l n r h
  rw [tm64_eq] at h
  exact (tmBCS_props (by omega) h).1

lemma tm64_lenA : ∀ (p : Option Char) (l : List Char) (n : ℕ) (r : List Char),
    tm64 p l = some (n, r) → n ≤ l.length := by
  intro p l n r h
  rw [tm64_eq] at h
  exact (tmBCS_props (by omega) h).2.1

lemma tm64_nilA : ∀ (p : Option Char), tm64 p [] = none := by
  intro p
  rw [tm64_eq]
  exact tmBCS_nil p (by omega)

lemma tm64_repl {p : Option Char} {l : List Char} {n : ℕ} {r : List Char}
    (h : tm64 p l = some (n, r)) : r = "<DATA>".data := by
  rw [tm64_eq] at h
  exact (tmBCS_some h).1

lemma tm64_replA : ∀ (p : Option Char) (l : List Char) (n : ℕ) (r : List Char),
    tm64 p l = some (n, r) → ∃ t, r = '<' :: t := by
  intro p l n r h
  exact ⟨"DATA>".data, by rw [tm64_repl h]⟩

lemma tm64_endBoundary {p : Option Char} {l : List Char} {n : ℕ} {r : List Char}
    (h : tm64 p l = some (n, r)) : boundaryAfter l n = true := by
  rw [tm64_eq] at h
  exact (tmBCS_props (by omega) h).2.2

/-- The no-isolated-hex-run invariant: wherever the output has a left
word boundary followed by a run of at least 32 hexadecimal characters,
the run is closed on the right by a word character, so the rule 10
pattern cannot end there. -/
def noIsoHex (prev : Option Char) (out : List Char) : Prop :=
  ∀ i, 32 ≤ runLength isHexChar (out.drop i) →
    nonWordOpt (prevAt prev out i) = true →
    ∃ c, out[i + runLength isHexChar (out.drop i)]? = some c ∧ isWordChar c = true

end Sanitizer
end QA

namespace QA
namespace Sanitizer

lemma head?_eq_get0 (l : List Char) : l.head? = l[0]? := by
  cases l <;> simp

/-- If the matcher of rule 9 declines at a position whose scan output
starts with a left-delimited hex run of length at least 32 that is not
closed by a word character, we reach a contradiction: the base64 rule
would have matched there. -/
lemma copy_zero_contra {prev : Option Char} {l out : List Char}
    (hnone : tm64 prev l = none)
    (hscan : subScan tm64 prev l = out)
    (hdelim : nonWordOpt prev = true)
    (h32 : 32 ≤ runLength isHexChar out)
    (hend : out[runLength isHexChar out]? = none ∨
      ∃ ch, out[runLength isHexChar out]? = some ch ∧ isWordChar ch = false) :
    False := by
  rcases subScan_first tm64 tm64_posA tm64_lenA tm64_nilA prev l with
    ⟨hsl, _⟩ | ⟨m, n, repl, d, hmt, hmin, hdd, heq⟩
  · -- the matcher fires nowhere: the output is the input
    have hol : out = l := hscan.symm.trans hsl
    subst hol
    obtain ⟨c0, hc0, hh0⟩ := runLength_get isHexChar out 0 (by omega)
    have hb : boundaryAt prev out.head? = true := by
      rw [head?_eq_get0, hc0]
      exact boundaryAt_of_nonWord hdelim (hex_word hh0)
    obtain ⟨e, he⟩ := @tmBCS_of_hexRun isBase64Char 20 2 ("<DATA>".data) prev out
      (runLength isHexChar out) (by omega) (fun ch h => hex_b64 h)
      (fun k hk => runLength_get isHexChar out k hk) (by omega) (by omega) hb hend
    have hcontra : tm64 prev out = some (e, "<DATA>".data) := by
      rw [tm64_eq]
      exact he
    rw [hnone] at hcontra
    exact Option.noConfusion hcontra
  · -- first match at position m
    have hrepl : repl = "<DATA>".data := tm64_repl hmt
    subst hrepl
    have hm0 : m ≠ 0 := by
      intro h0
      subst h0
      simp only [prevAt, if_true, List.drop_zero, reduceIte] at hmt
      rw [hnone] at hmt
      exact Option.noConfusion hmt
    have hn2 : n ≤ (l.drop m).length := tm64_lenA _ _ _ _ hmt
    have hn1 : 1 ≤ n := tm64_posA _ _ _ _ hmt
    have hmlen : m < l.length := by
      rw [List.length_drop] at hn2
      omega
    have hoeq : out = l.take m ++ "<DATA>".data
        ++ subScan tm64 (some d) (l.drop (m + n)) := hscan.symm.trans heq
    have houtk : ∀ k, k < m → out[k]? = l[k]? := by
      intro k hk
      rw [hoeq, List.append_assoc,
        getElem?_append_lt _ (by rw [List.length_take]; omega),
        List.getElem?_take, if_pos hk]
    have houtm : out[m]? = some '<' := by
      have hadd := getElem?_append_add (l.take m)
        ("<DATA>".data ++ subScan tm64 (some d) (l.drop (m + n))) 0
      rw [List.length_take, Nat.add_zero,
        show min m l.length = m from by omega] at hadd
      rw [hoeq, List.append_assoc, hadd]
      rfl
    have hb : boundaryAt prev l.head? = true := by
      obtain ⟨c0, hc0, hh0⟩ := runLength_get isHexChar out 0 (by omega)
      have hl0 : l[0]? = some c0 := by
        rw [← houtk 0 (by omega)]
        exact hc0
      rw [head?_eq_get0, hl0]
      exact boundaryAt_of_nonWord hdelim (hex_word hh0)
    rcases lt_trichotomy m (runLength isHexChar out) with hlt | heqm | hgt
    · obtain ⟨ch, hch, hh⟩ := runLength_get isHexChar out m hlt
      rw [houtm] at hch
      obtain rfl := Option.some.inj hch
      exact absurd hh (by decide)
    · rw [tm64_eq] at hmt
      obtain ⟨e, he⟩ := tmBCS_lift (by omega) hmt
        (fun k hk => by
          obtain ⟨ch, hch, hh⟩ := runLength_get isHexChar out k (by omega)
          exact ⟨ch, (houtk k hk).symm.trans hch, hex_b64 hh⟩) hb
      have hcontra : tm64 prev l = some (e, "<DATA>".data) := by
        rw [tm64_eq]
        exact he
      rw [hnone] at hcontra
      exact Option.noConfusion hcontra
    · obtain ⟨e, he⟩ := @tmBCS_of_hexRun isBase64Char 20 2 ("<DATA>".data) prev l
        (runLength isHexChar out) (by omega) (fun ch h => hex_b64 h)
        (fun k hk => by
          obtain ⟨ch, hch, hh⟩ := runLength_get isHexChar out k hk
          exact ⟨ch, (houtk k (by omega)).symm.trans hch, hh⟩)
        (by omega) (by omega) hb
        (by
          rcases hend with he1 | ⟨ch, hc2, hw2⟩
          · left
            rw [← houtk _ hgt]
            exact he1
          · right
            exact ⟨ch, (houtk _ hgt).symm.trans hc2, hw2⟩)
      have hcontra : tm64 prev l = some (e, "<DATA>".data) := by
        rw [tm64_eq]
        exact he
      rw [hnone] at hcontra
      exact Option.noConfusion hcontra

end Sanitizer
end QA

namespace QA
namespace Sanitizer

set_option maxHeartbeats 1000000

/-- The base64 pass leaves no isolated hex run in its output: wherever
a left-delimited run of at least 32 hex characters appears, it is
closed on the right by a word character. -/
lemma b64_noIso (prev : Option Char) (l : List Char) :
    noIsoHex prev (subScan tm64 prev l) := by
  refine subScan.induct tm64 (fun prev l => noIsoHex prev (subScan tm64 prev l))
    ?_ ?_ ?_ ?_ prev l
  · -- empty input
    intro prev i h32 _
    have h0 : subScan tm64 prev [] = [] := by rw [subScan]
    rw [h0] at h32
    simp [runLength] at h32
  · -- copy case
    intro prev c rest hnone ih
    have hout : subScan tm64 prev (c :: rest) = c :: subScan tm64 (some c) rest := by
      rw [subScan, hnone]
    intro i h32 hdelim
    rw [hout] at h32 hdelim ⊢
    cases i with
    | succ j =>
      rw [List.drop_succ_cons] at h32 ⊢
      rw [prevAt_cons] at hdelim
      obtain ⟨ch, hch, hw⟩ := ih j h32 hdelim
      refine ⟨ch, ?_, hw⟩
      rw [show j + 1 + runLength isHexChar ((subScan tm64 (some c) rest).drop j)
          = (j + runLength isHexChar ((subScan tm64 (some c) rest).drop j)) + 1
          from by omega, List.getElem?_cons_succ]
      exact hch
    | zero =>
      simp only [prevAt, reduceIte] at hdelim
      rw [List.drop_zero] at h32 ⊢
      rw [Nat.zero_add]
      by_contra hfail
      push_neg at hfail
      have hend : (c :: subScan tm64 (some c) rest)[runLength isHexChar
            (c :: subScan tm64 (some c) rest)]? = none ∨
          ∃ ch, (c :: subScan tm64 (some c) rest)[runLength isHexChar
            (c :: subScan tm64 (some c) rest)]? = some ch ∧ isWordChar ch = false := by
        cases hq : (c :: subScan tm64 (some c) rest)[runLength isHexChar
            (c :: subScan tm64 (some c) rest)]? with
        | none => exact Or.inl rfl
        | some ch => exact Or.inr ⟨ch, rfl, Bool.eq_false_iff.2 (hfail ch hq)⟩
      exact copy_zero_contra hnone hout hdelim h32 hend
  · -- zero-width match: the matcher never returns it
    intro prev c rest repl hsome ih
    have := tm64_posA _ _ _ _ hsome
    omega
  · -- match case
    intro prev c rest n repl hsome hn ih
    have hrepl : repl = "<DATA>".data := tm64_repl hsome
    subst hrepl
    have hn2 : n ≤ (c :: rest).length := tm64_lenA _ _ _ _ hsome
    have hn1 : 1 ≤ n := tm64_posA _ _ _ _ hsome
    have hout : subScan tm64 prev (c :: rest)
        = "<DATA>".data ++ subScan tm64 (some ((c :: rest).getD (n - 1) c))
            ((c :: rest).drop n) := by
      rw [subScan, hsome]
      simp [hn]
    have h9 : n - 1 < (c :: rest).length := by omega
    have hld : (c :: rest)[n - 1]? = some ((c :: rest).getD (n - 1) c) := by
      rw [List.getD_eq_getElem?_getD, List.getElem?_eq_getElem h9]
      rfl
    have hbA : boundaryAfter (c :: rest) n = true := tm64_endBoundary hsome
    unfold boundaryAfter at hbA
    rw [hld] at hbA
    intro i h32 hdelim
    rw [hout] at h32 hdelim ⊢
    by_cases hi6 : 6 ≤ i
    · obtain ⟨i2, rfl⟩ : ∃ i2, i = 6 + i2 := ⟨i - 6, by omega⟩
      have hdr : ("<DATA>".data ++ subScan tm64 (some ((c :: rest).getD (n - 1) c))
            ((c :: rest).drop n)).drop (6 + i2)
          = (subScan tm64 (some ((c :: rest).getD (n - 1) c))
            ((c :: rest).drop n)).drop i2 := by
        have h6 := drop_append_add ("<DATA>".data)
          (subScan tm64 (some ((c :: rest).getD (n - 1) c)) ((c :: rest).drop n)) i2
        rw [show ("<DATA>".data).length = 6 from rfl] at h6
        exact h6
      have hidx : ∀ k, ("<DATA>".data ++ subScan tm64 (some ((c :: rest).getD (n - 1) c))
            ((c :: rest).drop n))[6 + k]?
          = (subScan tm64 (some ((c :: rest).getD (n - 1) c))
            ((c :: rest).drop n))[k]? := by
        intro k
        have h6 := getElem?_append_add ("<DATA>".data)
          (subScan tm64 (some ((c :: rest).getD (n - 1) c)) ((c :: rest).drop n)) k
        rw [show ("<DATA>".data).length = 6 from rfl] at h6
        exact h6
      rw [hdr] at h32 ⊢
      rw [show 6 + i2 + runLength isHexChar ((subScan tm64
            (some ((c :: rest).getD (n - 1) c)) ((c :: rest).drop n)).drop i2)
          = 6 + (i2 + runLength isHexChar ((subScan tm64
            (some ((c :: rest).getD (n - 1) c)) ((c :: rest).drop n)).drop i2))
          from by omega, hidx]
      cases i2 with
      | zero =>
        by_cases hw : isWordChar ((c :: rest).getD (n - 1) c) = true
        · -- the last consumed character is a word character: the end
          -- boundary forces a non-word (hence non-hex) next character
          have hhead : ∀ ch, ((c :: rest).drop n).head? = some ch →
              isHexChar ch = false := by
            intro ch hch
            rw [List.head?_drop] at hch
            rw [hch] at hbA
            simp only [boundaryAt, hw, bne_iff_ne] at hbA
            by_contra hhex
            have := hex_word (Bool.of_not_eq_false hhex)
            simp [this] at hbA
          have hz : runLength isHexChar (subScan tm64
              (some ((c :: rest).getD (n - 1) c)) ((c :: rest).drop n)) = 0 :=
            subScan_runZero tm64 tm64_replA _ _ hhead
          rw [List.drop_zero] at h32
          rw [hz] at h32
          omega
        · refine ih 0 h32 ?_
          rw [prevAt, if_pos rfl]
          simp only [nonWordOpt]
          rw [Bool.not_eq_true']
          exact Bool.eq_false_iff.2 hw
      | succ j2 =>
        refine ih (j2 + 1) h32 ?_
        have hp1 : prevAt prev ("<DATA>".data ++ subScan tm64
              (some ((c :: rest).getD (n - 1) c)) ((c :: rest).drop n)) (6 + (j2 + 1))
            = (subScan tm64 (some ((c :: rest).getD (n - 1) c))
              ((c :: rest).drop n))[j2]? := by
          rw [prevAt, if_neg (by omega),
            show 6 + (j2 + 1) - 1 = 6 + j2 from by omega, hidx]
        rw [hp1] at hdelim
        rw [prevAt, if_neg (by omega)]
        simpa using hdelim
    · -- inside the replacement token: no run reaches 32
      have hD : isHexChar 'D' = true := by decide
      have hA : isHexChar 'A' = true := by decide
      have hT : isHexChar 'T' = false := by decide
      have hLt : isHexChar '<' = false := by decide
      have hGt : isHexChar '>' = false := by decide
      have hdata : "<DATA>".data = '<' :: 'D' :: 'A' :: 'T' :: 'A' :: '>' :: [] := rfl
      rw [hdata] at h32
      interval_cases i <;>
        simp [runLength, hD, hA, hT, hLt, hGt, List.cons_append] at h32

end Sanitizer
end QA

namespace QA
namespace Sanitizer

lemma nonWord_of_boundary {p : Option Char} {c : Char}
    (h : boundaryAt p (some c) = true) (hc : isWordChar c = true) :
    nonWordOpt p = true := by
  cases p with
  | none => rfl
  | some a =>
    simp only [boundaryAt, hc, bne_iff_ne] at h
    simp only [nonWordOpt, Bool.not_eq_true']
    exact Bool.eq_false_iff.2 h

/-- On an output satisfying the invariant, the rule 10 matcher fails
at every position. -/
lemma tmHex_none_of_noIso {out : List Char} (h : noIsoHex none out) :
    ∀ m, tmBCS isHexChar 32 0 "<HEX>".data (prevAt none out m) (out.drop m) = none := by
  intro m
  cases hm : tmBCS isHexChar 32 0 "<HEX>".data (prevAt none out m) (out.drop m) with
  | none => rfl
  | some p =>
    exfalso
    obtain ⟨n, r⟩ := p
    obtain ⟨rfl, hb, hlen, hs⟩ := tmBCS_some hm
    obtain ⟨k, j, rfl, h1, h2, h3⟩ := bcsSearch_some hs
    have hj0 : j = 0 := by
      have := (eqTryAt_some h3).1
      omega
    subst hj0
    have hbk : boundaryAfter (out.drop m) k = true := by
      have := (eqTryAt_some h3).2
      rwa [Nat.add_zero] at this
    obtain ⟨c0, hc0, hh0⟩ := runLength_get isHexChar (out.drop m) 0 (by omega)
    have hnw : nonWordOpt (prevAt none out m) = true := by
      refine nonWord_of_boundary ?_ (hex_word hh0)
      rw [head?_eq_get0, hc0] at hb
      exact hb
    obtain ⟨ch, hch, hwch⟩ := h m hlen hnw
    obtain ⟨w1, hw1, hh1⟩ := runLength_get isHexChar (out.drop m) (k - 1) (by omega)
    rcases Nat.lt_or_ge k (runLength isHexChar (out.drop m)) with hk | hk
    · obtain ⟨w2, hw2, hh2⟩ := runLength_get isHexChar (out.drop m) k hk
      unfold boundaryAfter at hbk
      rw [hw1, hw2] at hbk
      simp [boundaryAt, hex_word hh1, hex_word hh2] at hbk
    · have hke : k = runLength isHexChar (out.drop m) := by omega
      subst hke
      unfold boundaryAfter at hbk
      rw [hw1] at hbk
      rw [List.getElem?_drop] at hbk
      rw [hch] at hbk
      simp [boundaryAt, hex_word hh1, hwch] at hbk

/-- Rule 10 is the identity on the output of rule 9. -/
lemma hexSub_after_b64Sub (l : List Char) :
    subScan (tmBCS isHexChar 32 0 "<HEX>".data) none (subScan tm64 none l)
      = subScan tm64 none l :=
  subScan_eq_self _ none _ (tmHex_none_of_noIso (b64_noIso none l))

end Sanitizer
end QA

namespace QA
namespace Sanitizer

/-- A matcher whose every replacement is seam-safe. -/
def Safe (tm : Matcher) : Prop :=
  ∀ (p : Option Char) (l : List Char) (n : ℕ) (r : List Char),
    tm p l = some (n, r) → ReplSafe r

lemma tmLiteralWB_safe {pat repl : List Char} (hr : ReplSafe repl) :
    Safe (tmLiteralWB pat repl) := by
  intro p l n r h
  unfold tmLiteralWB at h
  try dsimp only at h
  repeat' split at h
  all_goals first
    | exact Option.noConfusion h
    | (obtain ⟨h1, h2⟩ := Prod.mk.inj (Option.some.inj h)
       subst h2
       exact hr)

lemma tmIPv4_safe : Safe tmIPv4 := by
  intro p l n r h
  unfold tmIPv4 at h
  try dsimp only at h
  repeat' split at h
  all_goals first
    | exact Option.noConfusion h
    | (obtain ⟨h1, h2⟩ := Prod.mk.inj (Option.some.inj h)
       subst h2
       exact replSafeB_sound (by decide))

lemma tmIPv6_safe : Safe tmIPv6 := by
  intro p l n r h
  unfold tmIPv6 at h
  try dsimp only at h
  repeat' split at h
  all_goals first
    | exact Option.noConfusion h
    | (obtain ⟨h1, h2⟩ := Prod.mk.inj (Option.some.inj h)
       subst h2
       exact replSafeB_sound (by decide))

lemma tmGUID_safe : Safe tmGUID := by
  intro p l n r h
  unfold tmGUID at h
  try dsimp only at h
  repeat' split at h
  all_goals first
    | exact Option.noConfusion h
    | (obtain ⟨h1, h2⟩ := Prod.mk.inj (Option.some.inj h)
       subst h2
       exact replSafeB_sound (by decide))

lemma tmISO_safe : Safe tmISO := by
  intro p l n r h
  unfold tmISO at h
  try dsimp only at h
  repeat' split at h
  all_goals first
    | exact Option.noConfusion h
    | (simp only [Option.map_eq_some'] at h
       obtain ⟨e, he, hlr⟩ := h
       obtain ⟨h1, h2⟩ := Prod.mk.inj hlr
       subst h2
       exact replSafeB_sound (by decide))

lemma tmEpoch_safe : Safe tmEpoch := by
  intro p l n r h
  unfold tmEpoch at h
  try dsimp only at h
  repeat' split at h
  all_goals first
    | exact Option.noConfusion h
    | (obtain ⟨h1, h2⟩ := Prod.mk.inj (Option.some.inj h)
       subst h2
       exact replSafeB_sound (by decide))

lemma tmDomainSid_safe : Safe tmDomainSid := by
  intro p l n r h
  unfold tmDomainSid at h
  try dsimp only at h
  repeat' split at h
  all_goals first
    | exact Option.noConfusion h
    | (obtain ⟨h1, h2⟩ := Prod.mk.inj (Option.some.inj h)
       subst h2
       exact replSafeB_sound (by decide))

lemma tmPID_safe : Safe tmPID := by
  intro p l n r h
  unfold tmPID at h
  try dsimp only at h
  repeat' split at h
  all_goals first
    | exact Option.noConfusion h
    | (obtain ⟨h1, h2⟩ := Prod.mk.inj (Option.some.inj h)
       subst h2
       exact replSafeB_sound (by decide))

lemma tmRAND_safe : Safe tmRAND := by
  intro p l n r h
  unfold tmRAND at h
  try dsimp only at h
  repeat' split at h
  all_goals first
    | exact Option.noConfusion h
    | (obtain ⟨h1, h2⟩ := Prod.mk.inj (Option.some.inj h)
       subst h2
       exact replSafeB_sound (by decide))

lemma tm64_safe : Safe tm64 := by
  intro p l n r h
  have := tm64_repl h
  subst this
  exact replSafeB_sound (by decide)

end Sanitizer
end QA

namespace QA
namespace Sanitizer

lemma tmWinTemp_safe : Safe tmWinTemp := by
  intro p l n r h
  unfold tmWinTemp at h
  try dsimp only at h
  repeat' (first
    | (exact Option.noConfusion h)
    | (split at h)
    | (simp only [Option.bind_eq_some] at h
       obtain ⟨mid, hmid, h⟩ := h
       try dsimp only at h))
  all_goals try (obtain ⟨h1, h2⟩ := Prod.mk.inj (Option.some.inj h)
                 subst h2
                 exact replSafeB_sound (by decide))
  all_goals (obtain rfl := Option.some.inj h
             rename_i hq
             try dsimp only at hq
             repeat' (first
               | (exact Option.noConfusion hq)
               | (split at hq)
               | (simp only [Option.bind_eq_some] at hq
                  obtain ⟨mid2, hmid2, hq⟩ := hq
                  try dsimp only at hq))
             all_goals first
               | exact Option.noConfusion hq
               | (obtain ⟨h1, h2⟩ := Prod.mk.inj (Option.some.inj hq)
                  subst h2
                  exact replSafeB_sound (by decide)))

lemma tmLinTemp_safe : Safe tmLinTemp := by
  intro p l n r h
  unfold tmLinTemp at h
  try dsimp only at h
  repeat' (first
    | (exact Option.noConfusion h)
    | (split at h)
    | (simp only [Option.bind_eq_some] at h
       obtain ⟨mid, hmid, h⟩ := h
       try dsimp only at h))
  all_goals try (obtain ⟨h1, h2⟩ := Prod.mk.inj (Option.some.inj h)
                 subst h2
                 exact replSafeB_sound (by decide))
  all_goals (obtain rfl := Option.some.inj h
             rename_i hq
             try dsimp only at hq
             repeat' (first
               | (exact Option.noConfusion hq)
               | (split at hq)
               | (simp only [Option.bind_eq_some] at hq
                  obtain ⟨mid2, hmid2, hq⟩ := hq
                  try dsimp only at hq))
             all_goals first
               | exact Option.noConfusion hq
               | (obtain ⟨h1, h2⟩ := Prod.mk.inj (Option.some.inj hq)
                  subst h2
                  exact replSafeB_sound (by decide)))

end Sanitizer
end QA

namespace QA
namespace Sanitizer

lemma mem_of_leadsWith {τ u : List Char} {c : Char} (h : leadsWith τ u)
    (hc : c ∈ τ) : c ∈ u := by
  obtain ⟨t, rfl⟩ := h
  exact List.mem_append_left _ hc

lemma mem_of_endsWith {a u : List Char} {c : Char} (h : endsWith a u)
    (hc : c ∈ a) : c ∈ u := by
  obtain ⟨t, rfl⟩ := h
  exact List.mem_append_right _ hc

lemma occ_mem_angle {u : List Char} (h : occursIn hexTok u) : '<' ∈ u := by
  obtain ⟨a, b, rfl⟩ := h
  refine List.mem_append_left _ (List.mem_append_right _ ?_)
  decide

lemma endsWith_append_of_le {τ x y : List Char} (hle : τ.length ≤ y.length)
    (h : endsWith τ (x ++ y)) : endsWith τ y := by
  obtain ⟨t, ht⟩ := h
  rcases List.append_eq_append_iff.1 ht with ⟨w, hw1, hw2⟩ | ⟨w, hw1, hw2⟩
  · exact ⟨w, hw2⟩
  · have hwl : w = [] := by
      have h2 := congrArg List.length hw2
      simp only [List.length_append] at h2
      rw [← List.length_eq_zero]
      omega
    subst hwl
    rw [List.nil_append] at hw2
    subst hw2
    exact ⟨[], by simp⟩

/-- Prepending angle-bracket-free text to the HOST token keeps the
replacement seam-safe. -/
lemma replSafe_angle_free {x : List Char}
    (hlt : '<' ∉ x) (hgt : '>' ∉ x) :
    ReplSafe (x ++ "<HOST>".data) := by
  refine ⟨?_, ?_, ?_, ?_, ?_, ?_, ?_, ?_, ?_, ?_⟩
  · simp
  · intro hc
    rcases occ_append hc with h | h | ⟨a, b, hab, ha, hb, hea, hlb⟩
    · exact hlt (occ_mem_angle h)
    · rw [← hasSub_iff] at h
      exact absurd h (by decide)
    · refine hlt (mem_of_endsWith hea ?_)
      rcases hexTok_splits hab ha hb with ⟨rfl, _⟩ | ⟨rfl, _⟩ | ⟨rfl, _⟩ | ⟨rfl, _⟩
      · decide
      · decide
      · decide
      · decide
  · intro hlw
    rcases leadsWith_append_cases hlw with h | ⟨τ2, hτ2, hlb⟩
    · exact hgt (mem_of_leadsWith h (by decide))
    · cases hτn : τ2 with
      | nil =>
        rw [hτn, List.append_nil] at hτ2
        exact hgt (hτ2 ▸ (by decide))
      | cons d τ3 =>
        subst hτn
        obtain ⟨rfl, _⟩ := leadsWith_cons.1 hlb
        have : '<' ∈ ">".data := hτ2 ▸ List.mem_append_right _ (by simp)
        exact absurd this (by decide)
  · intro hlw
    rcases leadsWith_append_cases hlw with h | ⟨τ2, hτ2, hlb⟩
    · exact hgt (mem_of_leadsWith h (by decide))
    · cases hτn : τ2 with
      | nil =>
        rw [hτn, List.append_nil] at hτ2
        exact hgt (hτ2 ▸ (by decide))
      | cons d τ3 =>
        subst hτn
        obtain ⟨rfl, _⟩ := leadsWith_cons.1 hlb
        have : '<' ∈ "X>".data := hτ2 ▸ List.mem_append_right _ (by simp)
        exact absurd this (by decide)
  · intro hlw
    rcases leadsWith_append_cases hlw with h | ⟨τ2, hτ2, hlb⟩
    · exact hgt (mem_of_leadsWith h (by decide))
    · cases hτn : τ2 with
      | nil =>
        rw [hτn, List.append_nil] at hτ2
        exact hgt (hτ2 ▸ (by decide))
      | cons d τ3 =>
        subst hτn
        obtain ⟨rfl, _⟩ := leadsWith_cons.1 hlb
        have : '<' ∈ "EX>".data := hτ2 ▸ List.mem_append_right _ (by simp)
        exact absurd this (by decide)
  · intro hlw
    rcases leadsWith_append_cases hlw with h | ⟨τ2, hτ2, hlb⟩
    · exact hgt (mem_of_leadsWith h (by decide))
    · cases hτn : τ2 with
      | nil =>
        rw [hτn, List.append_nil] at hτ2
        exact hgt (hτ2 ▸ (by decide))
      | cons d τ3 =>
        subst hτn
        obtain ⟨rfl, _⟩ := leadsWith_cons.1 hlb
        have : '<' ∈ "HEX>".data := hτ2 ▸ List.mem_append_right _ (by simp)
        exact absurd this (by decide)
  · intro hew
    have := endsWith_append_of_le (by decide) hew
    rw [← endsWithB_iff] at this
    exact absurd this (by decide)
  · intro hew
    have := endsWith_append_of_le (by decide) hew
    rw [← endsWithB_iff] at this
    exact absurd this (by decide)
  · intro hew
    have := endsWith_append_of_le (by decide) hew
    rw [← endsWithB_iff] at this
    exact absurd this (by decide)
  · intro hew
    have := endsWith_append_of_le (by decide) hew
    rw [← endsWithB_iff] at this
    exact absurd this (by decide)

end Sanitizer
end QA

namespace QA
namespace Sanitizer

/-- A successful case-insensitive literal match splits the input into a
consumed prefix of the pattern length whose lowered characters equal
the lowered pattern, and the returned rest. -/
lemma matchCI_some : ∀ (pat l r : List Char), matchCI pat l = some r →
    ∃ x, l = x ++ r ∧ x.length = pat.length ∧
      x.map Char.toLower = pat.map Char.toLower := by
  intro pat
  induction pat with
  | nil =>
    intro l r h
    rw [matchCI] at h
    obtain rfl := Option.some.inj h
    exact ⟨[], by simp⟩
  | cons p ps ih =>
    intro l r h
    cases l with
    | nil => rw [matchCI] at h; exact Option.noConfusion h
    | cons c cs =>
      rw [matchCI] at h
      split at h
      · obtain ⟨x, hx1, hx2, hx3⟩ := ih cs r h
        refine ⟨c :: x, by rw [List.cons_append, hx1], by simp [hx2], ?_⟩
        simp only [List.map_cons, hx3]
        congr 1
      · exact Option.noConfusion h

lemma tmURL_safe : Safe tmURL := by
  intro pv l n r h
  unfold tmURL at h
  cases hm4 : matchCI "http".data l with
  | none => rw [hm4] at h; exact Option.noConfusion h
  | some rest4 =>
    rw [hm4] at h
    dsimp only at h
    have hproto : ∀ (p : ℕ), (∀ c ∈ l.take p, c ≠ '<' ∧ c ≠ '>') →
        (match labelDot (l.drop p) with
          | none => none
          | some k =>
            match hostTail (l.drop (p + k)) with
            | none => none
            | some m => some (p + k + m, l.take p ++ "<HOST>".data))
          = some (n, r) → ReplSafe r := by
      intro p hper hm
      cases hld : labelDot (l.drop p) with
      | none => rw [hld] at hm; exact Option.noConfusion hm
      | some k =>
        rw [hld] at hm
        dsimp only at hm
        cases hht : hostTail (l.drop (p + k)) with
        | none => rw [hht] at hm; exact Option.noConfusion hm
        | some m =>
          rw [hht] at hm
          dsimp only at hm
          obtain ⟨h1, h2⟩ := Prod.mk.inj (Option.some.inj hm)
          subst h2
          exact replSafe_angle_free
            (fun hc => ((hper _ hc).1 rfl))
            (fun hc => ((hper _ hc).2 rfl))
    obtain ⟨x1, hx1, hx1l, hx1m⟩ := matchCI_some _ _ _ hm4
    cases hs4 : matchCI "s://".data rest4 with
    | some rs =>
      rw [hs4] at h
      dsimp only at h
      obtain ⟨x2, hx2, hx2l, hx2m⟩ := matchCI_some _ _ _ hs4
      refine hproto 8 ?_ h
      intro c hc
      have htake : l.take 8 = x1 ++ x2 := by
        rw [hx1, hx2, ← List.append_assoc]
        rw [show 8 = (x1 ++ x2).length from by simp [hx1l, hx2l]]
        exact List.take_left _ _
      rw [htake] at hc
      have hlow : c.toLower ∈ ("http".data.map Char.toLower
          ++ "s://".data.map Char.toLower) := by
        rw [← hx1m, ← hx2m, ← List.map_append]
        exact List.mem_map_of_mem Char.toLower hc
      constructor
      · intro hceq
        subst hceq
        exact absurd hlow (by decide)
      · intro hceq
        subst hceq
        exact absurd hlow (by decide)
    | none =>
      rw [hs4] at h
      cases hc3 : matchCI "://".data rest4 with
      | none =>
        rw [hc3] at h
        exact Option.noConfusion h
      | some rc =>
        rw [hc3] at h
        dsimp only at h
        obtain ⟨x2, hx2, hx2l, hx2m⟩ := matchCI_some _ _ _ hc3
        refine hproto 7 ?_ h
        intro c hc
        have htake : l.take 7 = x1 ++ x2 := by
          rw [hx1, hx2, ← List.append_assoc]
          rw [show 7 = (x1 ++ x2).length from by simp [hx1l, hx2l]]
          exact List.take_left _ _
        rw [htake] at hc
        have hlow : c.toLower ∈ ("http".data.map Char.toLower
            ++ "://".data.map Char.toLower) := by
          rw [← hx1m, ← hx2m, ← List.map_append]
          exact List.mem_map_of_mem Char.toLower hc
        constructor
        · intro hceq
          subst hceq
          exact absurd hlow (by decide)
        · intro hceq
          subst hceq
          exact absurd hlow (by decide)

end Sanitizer
end QA

namespace QA
namespace Sanitizer

lemma occursIn_cons_elim {pat : List Char} {c : Char} {t : List Char}
    (h : occursIn pat (c :: t)) :
    leadsWith pat (c :: t) ∨ occursIn pat t := by
  obtain ⟨u, v, huv⟩ := h
  cases u with
  | nil =>
    rw [List.nil_append] at huv
    exact Or.inl ⟨v, huv⟩
  | cons u0 u1 =>
    rw [List.cons_append] at huv
    obtain ⟨_, h2⟩ := List.cons.inj huv
    exact Or.inr ⟨u1, v, h2⟩

/-- A space-free pattern occurring in the space-joined words occurs in
one of the words. -/
lemma occ_joinSpace {pat : List Char} (hne : pat ≠ []) (hsp : ' ' ∉ pat) :
    ∀ ws, occursIn pat (joinSpace ws) → ∃ w ∈ ws, occursIn pat w := by
  intro ws
  induction ws with
  | nil =>
    intro h
    obtain ⟨u, v, huv⟩ := h
    rw [show joinSpace [] = [] from rfl] at huv
    obtain ⟨h2, -⟩ := List.append_eq_nil.1 huv.symm
    obtain ⟨-, h3⟩ := List.append_eq_nil.1 h2
    exact absurd h3 hne
  | cons w ws' ih =>
    cases ws' with
    | nil =>
      intro h
      rw [show joinSpace [w] = w from rfl] at h
      exact ⟨w, by simp, h⟩
    | cons w2 ws2 =>
      intro h
      rw [show joinSpace (w :: w2 :: ws2) = w ++ ' ' :: joinSpace (w2 :: ws2)
        from rfl] at h
      rcases occ_append h with h1 | h1 | ⟨a, b, hab, ha, hb, hea, hlb⟩
      · exact ⟨w, by simp, h1⟩
      · rcases occursIn_cons_elim h1 with h2 | h2
        · obtain ⟨t, ht⟩ := h2
          cases pat with
          | nil => exact absurd rfl hne
          | cons p0 ps =>
            rw [List.cons_append] at ht
            obtain ⟨hp0, -⟩ := List.cons.inj ht
            exact absurd (by rw [← hp0]; simp) hsp
        · obtain ⟨w', hw', hocc⟩ := ih h2
          exact ⟨w', by simp only [List.mem_cons] at hw' ⊢; tauto, hocc⟩
      · cases b with
        | nil => exact absurd rfl hb
        | cons b0 bs =>
          obtain ⟨hb0, -⟩ := leadsWith_cons.1 hlb
          subst hb0
          have hmem : ' ' ∈ pat := by
            rw [hab]
            exact List.mem_append_right _ (by simp)
          exact absurd hmem hsp

/-- Every word produced by the split is an infix of the accumulated
input. -/
lemma pySplit_chunk : ∀ (l acc w : List Char), w ∈ pySplit l acc →
    ∃ u v, acc.reverse ++ l = u ++ w ++ v := by
  intro l
  induction l with
  | nil =>
    intro acc w hw
    rw [pySplit] at hw
    split at hw
    · simp at hw
    · simp only [List.mem_singleton] at hw
      subst hw
      exact ⟨[], [], by simp⟩
  | cons c rest ih =>
    intro acc w hw
    rw [pySplit] at hw
    split at hw
    · split at hw
      · obtain ⟨u, v, huv⟩ := ih [] w hw
        rw [List.reverse_nil, List.nil_append] at huv
        refine ⟨acc.reverse ++ c :: u, v, ?_⟩
        rw [huv]
        simp [List.append_assoc]
      · rcases List.mem_cons.1 hw with rfl | hw2
        · exact ⟨[], c :: rest, by simp⟩
        · obtain ⟨u, v, huv⟩ := ih [] w hw2
          rw [List.reverse_nil, List.nil_append] at huv
          refine ⟨acc.reverse ++ c :: u, v, ?_⟩
          rw [huv]
          simp [List.append_assoc]
    · obtain ⟨u, v, huv⟩ := ih (c :: acc) w hw
      refine ⟨u, v, ?_⟩
      rw [← huv]
      simp

/-- Whitespace normalization cannot create an occurrence of the HEX
token. -/
lemma normalizeWS_preserve {l : List Char} (h : ¬ occursIn hexTok l) :
    ¬ occursIn hexTok (normalizeWS l) := by
  intro hocc
  unfold normalizeWS at hocc
  obtain ⟨w, hw, hocc2⟩ := occ_joinSpace (by decide) (by decide) _ hocc
  obtain ⟨u, v, huv⟩ := pySplit_chunk l [] w hw
  rw [List.reverse_nil, List.nil_append] at huv
  obtain ⟨a, b, hab⟩ := hocc2
  refine h ⟨u ++ a, b ++ v, ?_⟩
  rw [huv, hab]
  simp [List.append_assoc]

lemma foldl_sid_preserve : ∀ (ps : List (String × String)) (l : List Char),
    (∀ pr ∈ ps, ReplSafe pr.2.data) → ¬ occursIn hexTok l →
    ¬ occursIn hexTok (ps.foldl
      (fun acc pr => subScan (tmLiteralWB pr.1.data pr.2.data) none acc) l) := by
  intro ps
  induction ps with
  | nil =>
    intro l _ h
    simpa using h
  | cons pr ps ih =>
    intro l hsafe h
    rw [List.foldl_cons]
    exact ih _ (fun q hq => hsafe q (by simp [hq]))
      ((scan_preserves _ (tmLiteralWB_safe (hsafe pr (by simp))) none l h).1)

/-- The well-known-SID replacement preserves absence of the HEX
token. -/
lemma sids_preserve {l : List Char} (h : ¬ occursIn hexTok l) :
    ¬ occursIn hexTok (replace_well_known_sids l) := by
  unfold replace_well_known_sids
  refine foldl_sid_preserve _ _ (fun pr hpr => replSafeB_sound ?_) h
  revert hpr
  revert pr
  decide

/-- The thirteen sanitization rules, applied in order, preserve absence
of the HEX token; rule 10 never fires on the output of rule 9. -/
lemma rules_preserve {l : List Char} (h : ¬ occursIn hexTok l) :
    ¬ occursIn hexTok (SANITIZATION_RULES.foldl
      (fun acc tm => subScan tm none acc) l) := by
  rw [show SANITIZATION_RULES.foldl (fun acc tm => subScan tm none acc) l
      = subScan tmRAND none (subScan tmPID none (subScan tmDomainSid none
        (subScan (tmBCS isHexChar 32 0 "<HEX>".data) none (subScan tm64 none
        (subScan tmEpoch none (subScan tmISO none (subScan tmURL none
        (subScan tmLinTemp none (subScan tmWinTemp none (subScan tmGUID none
        (subScan tmIPv6 none (subScan tmIPv4 none l))))))))))))
    from rfl]
  rw [hexSub_after_b64Sub]
  refine (scan_preserves _ tmRAND_safe _ _ ?_).1
  refine (scan_preserves _ tmPID_safe _ _ ?_).1
  refine (scan_preserves _ tmDomainSid_safe _ _ ?_).1
  refine (scan_preserves _ tm64_safe _ _ ?_).1
  refine (scan_preserves _ tmEpoch_safe _ _ ?_).1
  refine (scan_preserves _ tmISO_safe _ _ ?_).1
  refine (scan_preserves _ tmURL_safe _ _ ?_).1
  refine (scan_preserves _ tmLinTemp_safe _ _ ?_).1
  refine (scan_preserves _ tmWinTemp_safe _ _ ?_).1
  refine (scan_preserves _ tmGUID_safe _ _ ?_).1
  refine (scan_preserves _ tmIPv6_safe _ _ ?_).1
  refine (scan_preserves _ tmIPv4_safe _ _ ?_).1
  exact h

end Sanitizer
end QA

namespace QA
namespace Sanitizer

/-- C9: for every input that does not already contain the substring
<HEX>, the sanitizer output never contains <HEX>; moreover the
long-hexadecimal rule never fires after the base64 rule: rule 10 is
the identity on every rule 9 output. -/
theorem c9_no_hex_token (s : String)
    (h : ¬ occursIn "<HEX>".data s.data) :
    ¬ occursIn "<HEX>".data (sanitize (some s)).data ∧
    ∀ l : List Char,
      subScan (tmBCS isHexChar 32 0 "<HEX>".data) none
        (subScan (tmBCS isBase64Char 20 2 "<DATA>".data) none l)
      = subScan (tmBCS isBase64Char 20 2 "<DATA>".data) none l := by
  constructor
  · unfold sanitize
    dsimp only
    by_cases hs : s = ""
    · rw [if_pos hs]
      intro hocc
      obtain ⟨u, v, huv⟩ := hocc
      obtain ⟨h2, -⟩ := List.append_eq_nil.1 huv.symm
      obtain ⟨-, h3⟩ := List.append_eq_nil.1 h2
      exact absurd h3 (by decide)
    · rw [if_neg hs]
      exact normalizeWS_preserve (rules_preserve (sids_preserve h))
  · intro l
    exact hexSub_after_b64Sub l

theorem c9_witness :
    (¬ occursIn "<HEX>".data
      ("0123456789abcdef0123456789abcdef0123 ok").data) ∧
    ¬ occursIn "<HEX>".data
      (sanitize (some "0123456789abcdef0123456789abcdef0123 ok")).data := by
  have hhyp : ¬ occursIn "<HEX>".data
      ("0123456789abcdef0123456789abcdef0123 ok").data := by
    intro hc
    rw [← hasSub_iff] at hc
    exact absurd hc (by decide)
  exact ⟨hhyp,
    (c9_no_hex_token "0123456789abcdef0123456789abcdef0123 ok" hhyp).1⟩

end Sanitizer
end QA
